import Mathlib

/-!
Verification of the `sharing` crate (Shamir / Rabin / Krawczyk secret sharing
over GF(2^8)).

The development shallowly embeds the Rust sources:

* `src/ids.rs` — Rabin information dispersal and the Gauss–Jordan matrix
  inverse over GF(2^8);
* `src/secret.rs` — Shamir secret sharing and the Krawczyk composition;
* `src/secret_iter.rs` — the streaming Shamir variant;
* `src/share.rs` — the share record types and the `ShareVec::size` helper
  (which panics on inconsistent sizes).

The field GF(2^8) itself lives in the external `gf` crate, which is not part
of this repository.  Modelled from the spec (§4.1): bytes form the 256-element
field under the Rijndael polynomial `x^8 + x^4 + x^3 + x + 1` (0x11B);
addition and subtraction are XOR; multiplication is a carry-less multiply
reduced mod the polynomial; the spec explicitly allows either a runtime
carry-less multiply or log/antilog tables over the generator 0x03, and leaves
`inv 0` undefined (we model `inv 0 = 0`, the value produced by the standard
Fermat/table implementations).
-/

/-! ### The field GF(2^8), modelled from the spec -/

/-- One reduction step of the carry-less multiply: if the degree-8 bit is set,
subtract (XOR) the Rijndael polynomial 0x11B = 283. -/
def gfRed (a : Nat) : Nat := if 256 ≤ a then a ^^^ 283 else a

/-- Russian-peasant carry-less multiplication loop over 8 bits: the running
accumulator XORs in `a` whenever the low bit of `b` is set, `a` is multiplied
by `x` (shift and reduce) and `b` shifted down each round. -/
def gfMulGo : Nat → Nat → Nat → Nat → Nat
  | 0, _, _, acc => acc
  | fuel+1, a, b, acc =>
      gfMulGo fuel (gfRed (a * 2)) (b / 2) (if b % 2 = 1 then acc ^^^ a else acc)

/-- Multiplication in GF(2^8). Modelled from the spec: carry-less multiply
reduced mod 0x11B. -/
def gfMul (a b : Nat) : Nat := gfMulGo 8 a b 0

/-- Antilog table of GF(2^8) over the generator 0x03, packed into one natural
number, 8 bits per entry: entry `i` is `3^i` in the field. -/
def gfExpTab : Nat := 121466575815500734415996836054882879791832871126464106601702187317037704638720699736399773789881350966450612456712855012027411276600174289287471020404625812305602624065235109912861702064162581238381248958448422203687095403783548669481020115429473714815130546491650907227391014769411226625179674495964331439187933946584331397333639979447433688574122779091165484305754955373075414835846686739481168846087332879005575464100018941681806164995707250399423063311368515928344698269234575261926727907427524598329539937222090466892085999338983806607642276495436692919915470849325341672618663070658392065151738926641076044545

/-- Log table of GF(2^8) over the generator 0x03, packed into one natural
number, 8 bits per entry: entry `a` (for `a ≠ 0`) is the discrete log of `a`
base 3; entry 0 is unused. -/
def gfLogTab : Nat := 939374623831894136699086600277250597547650664638770418422125146541797353646788332867483593573384618611044815625336497665827114626705134492515730415652478061620339993830966980270842846318821775850471098591710629241171812800746666233448222972174585295916389942636813666312872914849454985560152530477328703759683306625234997237483834721220409437442253146756845415190424543171129629468776480674528486868811725071010351012234056630775688111116293610821126543142160426617079940511630006820862697466582575257349116925728488930366609138264019883664906661504235885380294353134295748489096855100647154935187045898006656778240

/-- Antilog lookup: `gfExp i = 3^i` in GF(2^8), for `i < 255`. -/
def gfExp (i : Nat) : Nat := (gfExpTab >>> (8 * i)) &&& 255

/-- Log lookup: discrete log base 3 of a nonzero byte. -/
def gfLog (a : Nat) : Nat := (gfLogTab >>> (8 * a)) &&& 255

/-- Multiplicative inverse in GF(2^8), modelled from the spec via the
log/antilog tables; `inv 0` is undefined in the spec and modelled as 0. -/
def gfInv (a : Nat) : Nat := if a = 0 then 0 else gfExp ((255 - gfLog a) % 255)

/-! #### Bit-arithmetic helper lemmas -/

theorem xor_cancel_left (a b : Nat) : a ^^^ (a ^^^ b) = b := by
  rw [← Nat.xor_assoc, Nat.xor_self, Nat.zero_xor]

theorem xor_left_comm (a b c : Nat) : a ^^^ (b ^^^ c) = b ^^^ (a ^^^ c) := by
  rw [← Nat.xor_assoc, Nat.xor_comm a b, Nat.xor_assoc]

theorem two_pow_xor_eq_add {n x : Nat} (h : x < 2 ^ n) : 2 ^ n ^^^ x = 2 ^ n + x := by
  have hadd : 2 ^ n + x = 2 ^ n * 1 + x := by ring
  apply Nat.eq_of_testBit_eq
  intro j
  rw [Nat.testBit_xor, Nat.testBit_two_pow, hadd, Nat.testBit_mul_pow_two_add 1 h j]
  rcases lt_trichotomy j n with hj | hj | hj
  · have hne : n ≠ j := by omega
    simp [hj, hne]
  · subst hj
    have hx : x.testBit j = false := Nat.testBit_lt_two_pow h
    simp [hx]
  · have h1 : ¬ j < n := by omega
    have h2 : (1 : Nat).testBit (j - n) = false := by
      apply Nat.testBit_lt_two_pow
      calc (1 : Nat) < 2 ^ 1 := by norm_num
        _ ≤ 2 ^ (j - n) := Nat.pow_le_pow_right (by norm_num) (by omega)
    have h3 : n ≠ j := by omega
    have h4 : x.testBit j = false :=
      Nat.testBit_lt_two_pow (lt_of_lt_of_le h (Nat.pow_le_pow_right (by norm_num) (by omega)))
    simp [h1, h2, h3, h4]

theorem xor_mul_two (x y : Nat) : (x ^^^ y) * 2 = x * 2 ^^^ y * 2 := by
  have h2 : ∀ z : Nat, z * 2 = z <<< 1 := by
    intro z
    rw [Nat.shiftLeft_eq]
  rw [h2, h2, h2]
  apply Nat.eq_of_testBit_eq
  intro j
  simp only [Nat.testBit_shiftLeft, Nat.testBit_xor]
  by_cases hj : 1 ≤ j <;> simp [hj]

theorem gfRed_lt {a : Nat} (h : a < 512) : gfRed a < 256 := by
  unfold gfRed
  split
  · next hge =>
    have hx : a = 2 ^ 8 ^^^ (a - 256) := by
      rw [two_pow_xor_eq_add (by omega : a - 256 < 2 ^ 8)]
      omega
    have h283 : (283 : Nat) = 2 ^ 8 ^^^ 27 := by decide
    rw [hx, h283]
    have heq : 2 ^ 8 ^^^ (a - 256) ^^^ (2 ^ 8 ^^^ 27) = (a - 256) ^^^ 27 := by
      simp only [Nat.xor_assoc, Nat.xor_comm, xor_left_comm, xor_cancel_left,
        Nat.xor_self, Nat.zero_xor, Nat.xor_zero]
    rw [heq]
    exact Nat.xor_lt_two_pow (n := 8) (by omega) (by norm_num)
  · next hlt => omega

theorem gfRed_linear {x y : Nat} (hx : x < 256) (hy : y < 256) :
    gfRed ((x ^^^ y) * 2) = gfRed (x * 2) ^^^ gfRed (y * 2) := by
  rw [xor_mul_two]
  set u := x * 2 with hu
  set v := y * 2 with hv
  have hu5 : u < 512 := by omega
  have hv5 : v < 512 := by omega
  have h283 : (283 : Nat) = 2 ^ 8 ^^^ 27 := by decide
  unfold gfRed
  by_cases hcu : 256 ≤ u <;> by_cases hcv : 256 ≤ v
  · -- both high: the degree-8 bits cancel in u ^^^ v
    have hu' : u = 2 ^ 8 ^^^ (u - 256) := by
      rw [two_pow_xor_eq_add (by omega : u - 256 < 2 ^ 8)]; omega
    have hv' : v = 2 ^ 8 ^^^ (v - 256) := by
      rw [two_pow_xor_eq_add (by omega : v - 256 < 2 ^ 8)]; omega
    have hxor : u ^^^ v = (u - 256) ^^^ (v - 256) := by
      conv_lhs => rw [hu', hv']
      simp only [Nat.xor_assoc, Nat.xor_comm, xor_left_comm, xor_cancel_left,
        Nat.xor_self, Nat.zero_xor, Nat.xor_zero]
    have hlt : ¬ 256 ≤ u ^^^ v := by
      rw [hxor]
      have := Nat.xor_lt_two_pow (n := 8) (x := u - 256) (y := v - 256) (by omega) (by omega)
      omega
    simp only [hcu, hcv, hlt, if_true, if_false]
    rw [hxor]
    conv_rhs => rw [hu', hv', h283]
    simp only [Nat.xor_assoc, Nat.xor_comm, xor_left_comm, xor_cancel_left,
      Nat.xor_self, Nat.zero_xor, Nat.xor_zero]
  · -- u high, v low
    have hu' : u = 2 ^ 8 ^^^ (u - 256) := by
      rw [two_pow_xor_eq_add (by omega : u - 256 < 2 ^ 8)]; omega
    have hxor : u ^^^ v = 2 ^ 8 ^^^ ((u - 256) ^^^ v) := by
      conv_lhs => rw [hu']
      rw [Nat.xor_assoc]
    have hge : 256 ≤ u ^^^ v := by
      rw [hxor, two_pow_xor_eq_add (Nat.xor_lt_two_pow (n := 8) (by omega) (by omega))]
      omega
    simp only [hcu, hcv, hge, if_true, if_false]
    rw [hxor, h283]
    conv_rhs => rw [hu']
    simp only [Nat.xor_assoc, Nat.xor_comm, xor_left_comm, xor_cancel_left,
      Nat.xor_self, Nat.zero_xor, Nat.xor_zero]
  · -- u low, v high
    have hv' : v = 2 ^ 8 ^^^ (v - 256) := by
      rw [two_pow_xor_eq_add (by omega : v - 256 < 2 ^ 8)]; omega
    have hxor : u ^^^ v = 2 ^ 8 ^^^ (u ^^^ (v - 256)) := by
      conv_lhs => rw [hv']
      simp only [Nat.xor_assoc, Nat.xor_comm, xor_left_comm, xor_cancel_left,
        Nat.xor_self, Nat.zero_xor, Nat.xor_zero]
    have hge : 256 ≤ u ^^^ v := by
      rw [hxor, two_pow_xor_eq_add (Nat.xor_lt_two_pow (n := 8) (by omega) (by omega))]
      omega
    simp only [hcu, hcv, hge, if_true, if_false]
    rw [hxor, h283]
    conv_rhs => rw [hv']
    simp only [Nat.xor_assoc, Nat.xor_comm, xor_left_comm, xor_cancel_left,
      Nat.xor_self, Nat.zero_xor, Nat.xor_zero]
  · -- both low
    have hlt : ¬ 256 ≤ u ^^^ v := by
      have := Nat.xor_lt_two_pow (n := 8) (x := u) (y := v) (by omega) (by omega)
      omega
    simp only [hcu, hcv, hlt, if_true, if_false]

/-! #### Structural properties of the multiplication loop -/

theorem gfMulGo_lt : ∀ (fuel a b acc : Nat), a < 256 → acc < 256 →
    gfMulGo fuel a b acc < 256 := by
  intro fuel
  induction fuel with
  | zero => intro a b acc _ hacc; simpa [gfMulGo] using hacc
  | succ m ih =>
    intro a b acc ha hacc
    simp only [gfMulGo]
    apply ih
    · exact gfRed_lt (by omega)
    · split
      · exact Nat.xor_lt_two_pow (n := 8) hacc ha
      · exact hacc

theorem gfMulGo_zero_b : ∀ (fuel a acc : Nat), gfMulGo fuel a 0 acc = acc := by
  intro fuel
  induction fuel with
  | zero => intro a acc; simp [gfMulGo]
  | succ m ih => intro a acc; simp [gfMulGo, ih]

theorem gfMulGo_acc : ∀ (fuel a b acc : Nat),
    gfMulGo fuel a b acc = acc ^^^ gfMulGo fuel a b 0 := by
  intro fuel
  induction fuel with
  | zero => intro a b acc; simp [gfMulGo]
  | succ m ih =>
    intro a b acc
    simp only [gfMulGo]
    rw [ih _ _ (if b % 2 = 1 then acc ^^^ a else acc),
      ih _ _ (if b % 2 = 1 then 0 ^^^ a else 0)]
    rcases Nat.mod_two_eq_zero_or_one b with h | h <;>
      simp [h, Nat.xor_assoc]

theorem gfMul_b_linear (a b c : Nat) : gfMul a (b ^^^ c) = gfMul a b ^^^ gfMul a c := by
  suffices h : ∀ fuel a b c : Nat,
      gfMulGo fuel a (b ^^^ c) 0 = gfMulGo fuel a b 0 ^^^ gfMulGo fuel a c 0 by
    exact h 8 a b c
  intro fuel
  induction fuel with
  | zero => intro a b c; simp [gfMulGo]
  | succ m ih =>
    intro a b c
    simp only [gfMulGo]
    rw [gfMulGo_acc m _ _ (if (b ^^^ c) % 2 = 1 then 0 ^^^ a else 0),
      gfMulGo_acc m _ _ (if b % 2 = 1 then 0 ^^^ a else 0),
      gfMulGo_acc m _ _ (if c % 2 = 1 then 0 ^^^ a else 0),
      Nat.xor_div_two, ih]
    have hmod : ((b ^^^ c) % 2 = 1) ↔ ¬ ((b % 2 = 1) ↔ (c % 2 = 1)) :=
      Nat.xor_mod_two_eq_one
    generalize gfMulGo m (gfRed (a * 2)) (b / 2) 0 = X
    generalize gfMulGo m (gfRed (a * 2)) (c / 2) 0 = Y
    rcases Nat.mod_two_eq_zero_or_one b with hb | hb <;>
      rcases Nat.mod_two_eq_zero_or_one c with hc | hc
    · rw [if_neg (by rw [hmod]; simp [hb, hc]), if_neg (by omega), if_neg (by omega)]
      simp only [Nat.zero_xor]
    · rw [if_pos (by rw [hmod]; simp [hb, hc]), if_neg (by omega), if_pos hc]
      simp only [Nat.zero_xor]
      rw [xor_left_comm]
    · rw [if_pos (by rw [hmod]; simp [hb, hc]), if_pos hb, if_neg (by omega)]
      simp only [Nat.zero_xor]
      rw [Nat.xor_assoc]
    · rw [if_neg (by rw [hmod]; simp [hb, hc]), if_pos hb, if_pos hc]
      simp only [Nat.zero_xor]
      rw [Nat.xor_assoc a X (a ^^^ Y), xor_left_comm X a Y, xor_cancel_left]

theorem gfMul_a_linear {x y : Nat} (b : Nat) (hx : x < 256) (hy : y < 256) :
    gfMul (x ^^^ y) b = gfMul x b ^^^ gfMul y b := by
  suffices h : ∀ fuel b x y : Nat, x < 256 → y < 256 →
      gfMulGo fuel (x ^^^ y) b 0 = gfMulGo fuel x b 0 ^^^ gfMulGo fuel y b 0 by
    exact h 8 b x y hx hy
  intro fuel
  induction fuel with
  | zero => intro b x y _ _; simp [gfMulGo]
  | succ m ih =>
    intro b x y hx hy
    simp only [gfMulGo]
    rw [gfRed_linear hx hy,
      gfMulGo_acc m _ _ (if b % 2 = 1 then 0 ^^^ (x ^^^ y) else 0),
      gfMulGo_acc m _ _ (if b % 2 = 1 then 0 ^^^ x else 0),
      gfMulGo_acc m _ _ (if b % 2 = 1 then 0 ^^^ y else 0),
      ih _ _ _ (gfRed_lt (by omega)) (gfRed_lt (by omega))]
    generalize gfMulGo m (gfRed (x * 2)) (b / 2) 0 = X
    generalize gfMulGo m (gfRed (y * 2)) (b / 2) 0 = Y
    rcases Nat.mod_two_eq_zero_or_one b with hb | hb
    · rw [if_neg (by omega), if_neg (by omega), if_neg (by omega)]
      simp only [Nat.zero_xor]
    · rw [if_pos hb, if_pos hb, if_pos hb]
      simp only [Nat.zero_xor]
      rw [show (x ^^^ X) ^^^ (y ^^^ Y) = x ^^^ (X ^^^ (y ^^^ Y)) from Nat.xor_assoc x X (y ^^^ Y),
        xor_left_comm X y Y, ← Nat.xor_assoc x y (X ^^^ Y)]

theorem gfMul_zero_left (b : Nat) : gfMul 0 b = 0 := by
  suffices h : ∀ fuel b : Nat, gfMulGo fuel 0 b 0 = 0 by exact h 8 b
  intro fuel
  induction fuel with
  | zero => intro b; simp [gfMulGo]
  | succ m ih =>
    intro b
    simp only [gfMulGo]
    have h0 : gfRed (0 * 2) = 0 := by simp [gfRed]
    have h0' : gfRed 0 = 0 := by simp [gfRed]
    rcases Nat.mod_two_eq_zero_or_one b with hb | hb <;> simp [hb, h0, h0', ih]

theorem gfMul_zero_right (a : Nat) : gfMul a 0 = 0 := by
  simp [gfMul, gfMulGo_zero_b]

theorem gfMul_lt {a b : Nat} (ha : a < 256) : gfMul a b < 256 :=
  gfMulGo_lt 8 a b 0 ha (by norm_num)

theorem gfMul_one_right {a : Nat} : gfMul a 1 = a := by
  have h : gfMulGo 8 a 1 0 = gfMulGo 7 (gfRed (a * 2)) 0 (0 ^^^ a) := by
    show gfMulGo (7 + 1) a 1 0 = _
    rw [gfMulGo]
    norm_num
  rw [gfMul, h, gfMulGo_zero_b, Nat.zero_xor]

/-! #### The xor-expansion principle: two xor-linear maps on bytes that agree
on the powers of two agree everywhere -/

theorem xor_expansion (F G : Nat → Nat)
    (hF0 : F 0 = 0) (hG0 : G 0 = 0)
    (hF : ∀ x y, x < 256 → y < 256 → F (x ^^^ y) = F x ^^^ F y)
    (hG : ∀ x y, x < 256 → y < 256 → G (x ^^^ y) = G x ^^^ G y)
    (hbasis : ∀ i, i < 8 → F (2 ^ i) = G (2 ^ i)) :
    ∀ a, a < 256 → F a = G a := by
  suffices h : ∀ n, n ≤ 8 → ∀ a, a < 2 ^ n → F a = G a by
    intro a ha
    exact h 8 le_rfl a ha
  intro n
  induction n with
  | zero =>
    intro _ a ha
    interval_cases a
    rw [hF0, hG0]
  | succ m ih =>
    intro hm a ha
    have hmle : m ≤ 8 := by omega
    have hdiv : a / 2 ^ m ≤ 1 := by
      have hlt2 : a / 2 ^ m < 2 := by
        apply Nat.div_lt_of_lt_mul
        have hpow : (2 : Nat) ^ (m + 1) = 2 ^ m * 2 := by ring
        omega
      omega
    have hmod : a % 2 ^ m < 2 ^ m := Nat.mod_lt _ (Nat.pos_pow_of_pos m (by norm_num))
    rcases Nat.le_one_iff_eq_zero_or_eq_one.mp hdiv with h0 | h1
    · have : a = a % 2 ^ m := by
        conv_lhs => rw [← Nat.div_add_mod a (2 ^ m)]
        rw [h0]; ring
      rw [this]
      exact ih hmle _ hmod
    · have hm8 : m < 8 := by omega
      have hsplit : a = 2 ^ m ^^^ a % 2 ^ m := by
        rw [two_pow_xor_eq_add hmod]
        conv_lhs => rw [← Nat.div_add_mod a (2 ^ m)]
        rw [h1]; ring
      have h2m : (2 : Nat) ^ m < 256 := by
        calc (2 : Nat) ^ m < 2 ^ 8 := Nat.pow_lt_pow_right (by norm_num) hm8
          _ = 256 := by norm_num
      have hlow : a % 2 ^ m < 256 := by
        have : (2 : Nat) ^ m ≤ 256 := le_of_lt h2m
        omega
      rw [hsplit, hF _ _ h2m hlow, hG _ _ h2m hlow, hbasis m hm8, ih hmle _ hmod]

/-! #### Commutativity and associativity via basis decides -/

set_option maxHeartbeats 2000000 in
theorem gfMul_comm_basis :
    ∀ i j : Fin 8, gfMul (2 ^ i.val) (2 ^ j.val) = gfMul (2 ^ j.val) (2 ^ i.val) := by decide

set_option maxHeartbeats 8000000 in
theorem gfMul_assoc_basis :
    ∀ i j k : Fin 8, gfMul (gfMul (2 ^ i.val) (2 ^ j.val)) (2 ^ k.val)
      = gfMul (2 ^ i.val) (gfMul (2 ^ j.val) (2 ^ k.val)) := by decide

theorem two_pow_lt_256 {i : Nat} (h : i < 8) : 2 ^ i < 256 := by
  calc (2 : Nat) ^ i < 2 ^ 8 := Nat.pow_lt_pow_right (by norm_num) h
    _ = 256 := by norm_num

theorem gfMul_comm {a b : Nat} (ha : a < 256) (hb : b < 256) :
    gfMul a b = gfMul b a := by
  have step1 : ∀ i, i < 8 → ∀ b, b < 256 → gfMul (2 ^ i) b = gfMul b (2 ^ i) := by
    intro i hi
    apply xor_expansion (fun b => gfMul (2 ^ i) b) (fun b => gfMul b (2 ^ i))
    · exact gfMul_zero_right _
    · exact gfMul_zero_left _
    · intro x y _ _; exact gfMul_b_linear _ x y
    · intro x y hx hy; exact gfMul_a_linear _ hx hy
    · intro j hj; exact gfMul_comm_basis ⟨i, hi⟩ ⟨j, hj⟩
  revert a ha
  apply xor_expansion (fun a => gfMul a b) (fun a => gfMul b a)
  · exact gfMul_zero_left _
  · exact gfMul_zero_right _
  · intro x y hx hy; exact gfMul_a_linear _ hx hy
  · intro x y _ _; exact gfMul_b_linear _ x y
  · intro i hi; exact step1 i hi b hb

theorem gfMul_assoc {a b c : Nat} (ha : a < 256) (hb : b < 256) (hc : c < 256) :
    gfMul (gfMul a b) c = gfMul a (gfMul b c) := by
  have step1 : ∀ i, i < 8 → ∀ j, j < 8 → ∀ c, c < 256 →
      gfMul (gfMul (2 ^ i) (2 ^ j)) c = gfMul (2 ^ i) (gfMul (2 ^ j) c) := by
    intro i hi j hj
    apply xor_expansion
    · exact gfMul_zero_right _
    · rw [gfMul_zero_right, gfMul_zero_right]
    · intro x y _ _; exact gfMul_b_linear _ x y
    · intro x y _ _
      rw [gfMul_b_linear (2 ^ j) x y, gfMul_b_linear]
    · intro k hk; exact gfMul_assoc_basis ⟨i, hi⟩ ⟨j, hj⟩ ⟨k, hk⟩
  have step2 : ∀ i, i < 8 → ∀ b, b < 256 → ∀ c, c < 256 →
      gfMul (gfMul (2 ^ i) b) c = gfMul (2 ^ i) (gfMul b c) := by
    intro i hi b hb c hc
    revert b hb
    apply xor_expansion (fun b => gfMul (gfMul (2 ^ i) b) c)
      (fun b => gfMul (2 ^ i) (gfMul b c))
    · rw [gfMul_zero_right, gfMul_zero_left]
    · rw [gfMul_zero_left, gfMul_zero_right]
    · intro x y hx hy
      rw [gfMul_b_linear (2 ^ i) x y,
        gfMul_a_linear c (gfMul_lt (two_pow_lt_256 hi)) (gfMul_lt (two_pow_lt_256 hi))]
    · intro x y hx hy
      rw [gfMul_a_linear c hx hy, gfMul_b_linear]
    · intro j hj; exact step1 i hi j hj c hc
  revert a ha
  apply xor_expansion (fun a => gfMul (gfMul a b) c) (fun a => gfMul a (gfMul b c))
  · rw [gfMul_zero_left, gfMul_zero_left]
  · exact gfMul_zero_left _
  · intro x y hx hy
    rw [gfMul_a_linear b hx hy, gfMul_a_linear c (gfMul_lt hx) (gfMul_lt hy)]
  · intro x y hx hy
    exact gfMul_a_linear _ hx hy
  · intro i hi; exact step2 i hi b hb c hc

theorem gfMul_one_left {a : Nat} (ha : a < 256) : gfMul 1 a = a := by
  rw [gfMul_comm (by norm_num) ha, gfMul_one_right]

theorem gfInv_lt {a : Nat} : gfInv a < 256 := by
  unfold gfInv
  split
  · norm_num
  · unfold gfExp
    have : (gfExpTab >>> (8 * ((255 - gfLog a) % 255))) &&& 255 ≤ 255 := Nat.and_le_right
    omega

set_option maxHeartbeats 8000000 in
set_option maxRecDepth 4000 in
theorem gfMul_inv_cancel :
    ∀ a : Fin 256, a.val ≠ 0 → gfMul a.val (gfInv a.val) = 1 := by decide

/-! ### GF(2^8) as a bundled field -/

/-- A field element of GF(2^8): a byte. -/
structure GFb where
  val : Nat
  lt : val < 256
deriving DecidableEq

theorem xor_lt_256 {a b : Nat} (ha : a < 256) (hb : b < 256) : a ^^^ b < 256 :=
  Nat.xor_lt_two_pow (n := 8) (by omega) (by omega)

theorem GFb.ext {a b : GFb} (h : a.val = b.val) : a = b := by
  cases a; cases b; cases h; rfl

instance : Zero GFb := ⟨⟨0, by norm_num⟩⟩

instance : One GFb := ⟨⟨1, by norm_num⟩⟩

instance : Add GFb := ⟨fun a b => ⟨a.val ^^^ b.val, xor_lt_256 a.lt b.lt⟩⟩

instance : Mul GFb := ⟨fun a b => ⟨gfMul a.val b.val, gfMul_lt a.lt⟩⟩

instance : Neg GFb := ⟨fun a => a⟩

instance : Inv GFb := ⟨fun a => ⟨gfInv a.val, gfInv_lt⟩⟩

instance : Inhabited GFb := ⟨0⟩

@[simp] theorem GFb.val_zero : (0 : GFb).val = 0 := rfl

@[simp] theorem GFb.val_one : (1 : GFb).val = 1 := rfl

@[simp] theorem GFb.val_add (a b : GFb) : (a + b).val = a.val ^^^ b.val := rfl

@[simp] theorem GFb.val_mul (a b : GFb) : (a * b).val = gfMul a.val b.val := rfl

@[simp] theorem GFb.neg_eq (a : GFb) : -a = a := rfl

@[simp] theorem GFb.val_inv (a : GFb) : (a⁻¹).val = gfInv a.val := rfl

instance : CommRing GFb where
  nsmul := nsmulRec
  zsmul := zsmulRec
  add_assoc a b c := by apply GFb.ext; exact Nat.xor_assoc a.val b.val c.val
  zero_add a := by apply GFb.ext; exact Nat.zero_xor a.val
  add_zero a := by apply GFb.ext; exact Nat.xor_zero a.val
  add_comm a b := by apply GFb.ext; exact Nat.xor_comm a.val b.val
  neg_add_cancel a := by apply GFb.ext; exact Nat.xor_self a.val
  mul_assoc a b c := by apply GFb.ext; exact gfMul_assoc a.lt b.lt c.lt
  one_mul a := by apply GFb.ext; exact gfMul_one_left a.lt
  mul_one a := by apply GFb.ext; exact gfMul_one_right
  left_distrib a b c := by apply GFb.ext; exact gfMul_b_linear a.val b.val c.val
  right_distrib a b c := by apply GFb.ext; exact gfMul_a_linear c.val a.lt b.lt
  zero_mul a := by apply GFb.ext; exact gfMul_zero_left a.val
  mul_zero a := by apply GFb.ext; exact gfMul_zero_right a.val
  mul_comm a b := by apply GFb.ext; exact gfMul_comm a.lt b.lt

instance : Field GFb where
  exists_pair_ne := ⟨0, 1, by decide⟩
  mul_inv_cancel a ha := by
    apply GFb.ext
    show gfMul a.val (gfInv a.val) = 1
    apply gfMul_inv_cancel ⟨a.val, a.lt⟩
    intro h
    exact ha (GFb.ext h)
  inv_zero := GFb.ext (by simp [gfInv])
  nnqsmul := _
  nnqsmul_def := fun _ _ => rfl
  qsmul := _
  qsmul_def := fun _ _ => rfl

/-- The conversion `GF(b)` from a byte (a `u8`) into the field; on values
that are already bytes it is the identity on representations. -/
def GFb.ofByte (n : Nat) : GFb := ⟨n % 256, Nat.mod_lt _ (by norm_num)⟩

@[simp] theorem GFb.val_ofByte {n : Nat} (h : n < 256) : (GFb.ofByte n).val = n := by
  simp [GFb.ofByte, Nat.mod_eq_of_lt h]

@[simp] theorem GFb.ofByte_val (g : GFb) : GFb.ofByte g.val = g :=
  GFb.ext (by simp [GFb.ofByte, Nat.mod_eq_of_lt g.lt])

theorem GFb.sub_eq_add (a b : GFb) : a - b = a + b := by
  rw [sub_eq_add_neg, GFb.neg_eq]

/-- One byte of an RNG output stream (the stream is modelled as a function
from consumption position to a value, masked to a byte). -/
def byteAt (r : Nat → Nat) (i : Nat) : Nat := r i % 256

theorem byteAt_lt (r : Nat → Nat) (i : Nat) : byteAt r i < 256 :=
  Nat.mod_lt _ (by norm_num)

/-! ### Share records and the result type (src/share.rs) -/

/-- Result of a Rust function returning `Option<T>` that can also panic:
`crash` models a panic, `fail` models `None`, `ok` models `Some`. -/
inductive RRes (α : Type) where
  | crash : RRes α
  | fail : RRes α
  | ok : α → RRes α
deriving DecidableEq

/-- `ShamirShare` from src/share.rs: an id byte and a body. -/
structure ShamirShareL where
  id : Nat
  body : List Nat
deriving DecidableEq

instance : Inhabited ShamirShareL := ⟨⟨0, []⟩⟩

/-- `RabinShare` from src/share.rs: id, original secret length, body. -/
structure RabinShareL where
  id : Nat
  length : Nat
  body : List Nat
deriving DecidableEq

instance : Inhabited RabinShareL := ⟨⟨0, 0, []⟩⟩

/-- `KrawczykShare` from src/share.rs: id, plaintext length, 44-byte key
material, Rabin body. -/
structure KrawczykShareL where
  id : Nat
  length : Nat
  key : List Nat
  body : List Nat
deriving DecidableEq

instance : Inhabited KrawczykShareL := ⟨⟨0, 0, [], []⟩⟩

/-- `ShareVec::size` for `Vec<ShamirShare>` (src/share.rs lines 72-80):
`self[0].size()` (panics on an empty vector), then checks that every share
has that size, panicking ("size Error") otherwise.  `ShamirShare::size` is
the body length.  `none` models the panic. -/
def shamirSharesSize (shares : List ShamirShareL) : Option Nat :=
  match shares with
  | [] => none
  | s :: _ =>
      if shares.all (fun t => t.body.length = s.body.length) then some s.body.length else none

/-- `ShareVec::size` for `Vec<RabinShare>`: `RabinShare::size` is the stored
`length` field (not the body length), so the consistency check is on the
`length` fields. -/
def rabinSharesSize (shares : List RabinShareL) : Option Nat :=
  match shares with
  | [] => none
  | s :: _ =>
      if shares.all (fun t => t.length = s.length) then some s.length else none

/-! ### Shamir secret sharing (src/secret.rs lines 43-97) -/

/-- Coefficient `rand[j]` of the random polynomial used for secret byte `i`:
`rand[0] = data[i]` and `rand[1..k]` are the `k-1` RNG bytes drawn for
position `i` (`self.rng.fill(&mut rand[1..])` consumes `k-1` stream bytes
per input byte, so coefficient `j ≥ 1` at position `i` is stream byte
`(k-1)*i + (j-1)`). -/
def shamirCoef (k : Nat) (rng : Nat → Nat) (data : List Nat) (i j : Nat) : Nat :=
  if j = 0 then data.getD i 0 else byteAt rng ((k - 1) * i + (j - 1))

/-- One body byte of the Shamir share at evaluation point `x`:
`rand.iter().enumerate().map(|(j, r)| GF(x).pow(j) * GF(*r)).sum()`. -/
def shamirByte (k : Nat) (rng : Nat → Nat) (data : List Nat) (i x : Nat) : Nat :=
  (∑ j ∈ Finset.range k, GFb.ofByte x ^ j * GFb.ofByte (shamirCoef k rng data i j)).val

/-- `ShamirSecretSharing::share` (src/secret.rs lines 45-72).  Fails when
`k < 1 || k > n`.  The output is built by `ShareVec::with_size`, which
initialises every id to 0; the loop assigns `out[x].id = x + 1` only on the
first iteration (`i == 0`), so for an empty secret the ids stay 0. -/
def shamirShare (n k : Nat) (rng : Nat → Nat) (data : List Nat) :
    Option (List ShamirShareL) :=
  if k < 1 ∨ k > n then none
  else some ((List.range n).map fun x =>
    { id := if data.length = 0 then 0 else x + 1
      body := (List.range data.length).map fun i => shamirByte k rng data i (x + 1) })

/-- One byte of the Lagrange interpolation at 0 computed by
`ShamirSecretSharing::recontruct`:
`Σ_{j<k} GF(shares[j].body[i]) * Π_{m<k, m≠j} GF(id_m) / (GF(id_m) - GF(id_j))`. -/
def shamirRecByte (k : Nat) (shares : List ShamirShareL) (i : Nat) : Nat :=
  (∑ j ∈ Finset.range k,
    GFb.ofByte ((shares.getD j default).body.getD i 0) *
      ∏ m ∈ (Finset.range k).filter (· ≠ j),
        GFb.ofByte (shares.getD m default).id /
          (GFb.ofByte (shares.getD m default).id - GFb.ofByte (shares.getD j default).id)).val

/-- `ShamirSecretSharing::recontruct` (src/secret.rs lines 74-96): fails when
fewer than `k` shares are supplied, otherwise calls `shares.size()` (which
panics on inconsistent body lengths) and interpolates each byte from the
FIRST `k` shares. -/
def shamirRecontruct (k : Nat) (shares : List ShamirShareL) : RRes (List Nat) :=
  if shares.length < k then .fail
  else
    match shamirSharesSize shares with
    | none => .crash
    | some sz => .ok ((List.range sz).map fun i => shamirRecByte k shares i)

/-! ### Rabin information dispersal (src/ids.rs lines 35-89) -/

/-- Fuel-driven worker for `chunks`: structural recursion on the fuel (so the
kernel can evaluate it on concrete inputs).  With `k ≠ 0`, any fuel
`≥ l.length` gives the same result (`chunksGo_eq`). -/
def chunksGo (k : Nat) : Nat → List Nat → List (List Nat)
  | _, [] => []
  | 0, _ :: _ => []
  | fuel + 1, a :: l => ((a :: l).take k) :: chunksGo k fuel ((a :: l).drop k)

/-- `slice::chunks(k)`: the list split into consecutive runs of `k` (the last
chunk may be shorter).  Empty output for `k = 0` (Rust panics before this can
be observed — see `rabinShare`). -/
def chunks (k : Nat) (l : List Nat) : List (List Nat) :=
  if k = 0 then [] else chunksGo k l.length l

theorem chunksGo_eq {k : Nat} (hk : k ≠ 0) :
    ∀ (fuel : Nat) (l : List Nat), l.length ≤ fuel →
      chunksGo k fuel l = chunksGo k l.length l := by
  intro fuel
  induction fuel using Nat.strong_induction_on with
  | _ fuel ih =>
    intro l hl
    match l with
    | [] => cases fuel <;> rfl
    | a :: t =>
      have hl' : t.length + 1 ≤ fuel := by simpa using hl
      obtain ⟨m, rfl⟩ : ∃ m, fuel = m + 1 := ⟨fuel - 1, by omega⟩
      show ((a :: t).take k) :: chunksGo k m ((a :: t).drop k)
          = ((a :: t).take k) :: chunksGo k t.length ((a :: t).drop k)
      congr 1
      have hd : ((a :: t).drop k).length ≤ t.length := by
        simp only [List.length_drop, List.length_cons]
        omega
      rw [ih m (by omega) _ (le_trans hd (by omega)), ih t.length (by omega) _ hd]

/-- The recursion equation of Rust's `slice::chunks` (the shape the
well-founded definition would give). -/
theorem chunks_unfold (k : Nat) (l : List Nat) :
    chunks k l = if k = 0 then [] else if l = [] then []
      else l.take k :: chunks k (l.drop k) := by
  by_cases hk : k = 0
  · simp [chunks, hk]
  · rw [if_neg hk]
    match l with
    | [] => simp [chunks, hk, chunksGo]
    | a :: t =>
      rw [if_neg (by simp)]
      simp only [chunks]
      rw [if_neg hk, if_neg hk]
      show ((a :: t).take k) :: chunksGo k t.length ((a :: t).drop k)
          = (a :: t).take k :: chunksGo k ((a :: t).drop k).length ((a :: t).drop k)
      congr 1
      exact chunksGo_eq hk t.length _ (by simp; omega)

/-- The Horner evaluation of a chunk used by `RabinInformationDispersal::share`:
`chunk.into_iter().rev().fold(GF::zero(), |res, b| GF(*b) + gx * res)`. -/
def hornerEval (chunk : List Nat) (x : Nat) : GFb :=
  chunk.reverse.foldl (fun res b => GFb.ofByte b + GFb.ofByte x * res) 0

/-- `RabinInformationDispersal::share` (src/ids.rs lines 37-60).  There is no
parameter validation; `data.chunks(k)` panics (in Rust) when `k = 0`, which
happens as soon as the closure runs, i.e. when `n ≥ 1`. -/
def rabinShare (n k : Nat) (data : List Nat) : RRes (List RabinShareL) :=
  if k = 0 ∧ 1 ≤ n then .crash
  else .ok ((List.range n).map fun x =>
    { id := x + 1
      length := data.length
      body := (chunks k data).map fun c => (hornerEval c (x + 1)).val })

/-! ### Gauss-Jordan matrix inverse over GF(2^8) (src/ids.rs lines 91-172) -/

/-- `normalize_row` applied to row `i` of a matrix: every entry of the row is
multiplied by `element` (on the right). -/
def rowScale {k : Nat} (m : Matrix (Fin k) (Fin k) GFb) (i : Fin k) (s : GFb) :
    Matrix (Fin k) (Fin k) GFb :=
  m.updateRow i fun c => m i c * s

/-- `mult_and_subtract` applied to row `j` using (normalized) row `i` and
coefficient `c`: `row[j] := row[j] - row[i] * c`. -/
def rowSubMul {k : Nat} (m : Matrix (Fin k) (Fin k) GFb) (j i : Fin k) (c : GFb) :
    Matrix (Fin k) (Fin k) GFb :=
  m.updateRow j fun col => m j col - m i col * c

/-- The body of the inner loop of `inverse` (src/ids.rs lines 114-127): for
row `j`, skip when `j == i` or when the coefficient `tmp[j][i]` is zero,
otherwise subtract `coeff` times the pivot row from row `j` in both matrices. -/
def elimStep {k : Nat} (i : Fin k) (st : Matrix (Fin k) (Fin k) GFb × Matrix (Fin k) (Fin k) GFb)
    (j : Fin k) : Matrix (Fin k) (Fin k) GFb × Matrix (Fin k) (Fin k) GFb :=
  if j = i then st
  else
    let coeff := st.1 j i
    if coeff = 0 then st
    else (rowSubMul st.1 j i coeff, rowSubMul st.2 j i coeff)

/-- One iteration of the outer loop of `inverse` (src/ids.rs lines 106-128):
normalize row `i` of both matrices by `inv(tmp[i][i])` — there is NO zero-pivot
row swap, that code is commented out — then eliminate column `i` from every
other row. -/
def pivotStep {k : Nat} (st : Matrix (Fin k) (Fin k) GFb × Matrix (Fin k) (Fin k) GFb)
    (i : Fin k) : Matrix (Fin k) (Fin k) GFb × Matrix (Fin k) (Fin k) GFb :=
  let s := (st.1 i i)⁻¹
  (List.finRange k).foldl (elimStep i) (rowScale st.1 i s, rowScale st.2 i s)

/-- `inverse` (src/ids.rs lines 101-133): Gauss-Jordan elimination on a copy
of the input and an identity matrix, returning the transformed identity. -/
def inverse {k : Nat} (m : Matrix (Fin k) (Fin k) GFb) : Matrix (Fin k) (Fin k) GFb :=
  ((List.finRange k).foldl pivotStep (m, 1)).2

/-- `generate_decoder` (src/ids.rs lines 83-89): the inverse of the
Vandermonde matrix `V[i][j] = GF(values[i])^j`. -/
def generateDecoder (k : Nat) (values : List Nat) : Matrix (Fin k) (Fin k) GFb :=
  inverse (Matrix.of fun i j : Fin k => GFb.ofByte (values.getD i 0) ^ (j : Nat))

/-- The in-loop access `shares[x].body[i]` of
`RabinInformationDispersal::recontruct` (src/ids.rs line 74) panics when share
`x`'s body is shorter than `shares[0]`'s: this predicate mirrors the loop
nest and holds exactly when some executed iteration — chunk index
`i < shares[0].body.len()`, column `j < k` with `index = i*k + j < L` past
the `index >= shares.size()` guard — reads past the end of body `x < k`. -/
def rabinOobPanic (k L : Nat) (shares : List RabinShareL) : Bool :=
  (List.range (shares.getD 0 default).body.length).any fun i =>
    (List.range k).any fun j =>
      decide (i * k + j < L) && (List.range k).any fun x =>
        decide ((shares.getD x default).body.length ≤ i)

/-- `RabinInformationDispersal::recontruct` (src/ids.rs lines 62-80): fails
with fewer than `k` shares; `shares.size()` (the stored `length` fields) sizes
the output buffer and panics on inconsistency; the loops then panic on the
first out-of-bounds body read (`rabinOobPanic`); otherwise position
`index = i*k + j` is written with `Σ_x decoder[j][x] * shares[x].body[i]` for
every chunk index `i < shares[0].body.len()` and `j < k`, skipping
`index ≥ length`; positions never written stay 0. -/
def rabinRecontruct (k : Nat) (shares : List RabinShareL) : RRes (List Nat) :=
  if shares.length < k then .fail
  else
    match rabinSharesSize shares with
    | none => .crash
    | some L =>
      if rabinOobPanic k L shares then .crash
      else
        .ok ((List.range L).map fun idx =>
          if h : 0 < k ∧ idx / k < (shares.getD 0 default).body.length then
            (∑ x : Fin k,
              generateDecoder k (shares.map (·.id)) ⟨idx % k, Nat.mod_lt idx h.1⟩ x *
                GFb.ofByte ((shares.getD x.val default).body.getD (idx / k) 0)).val
          else 0)

theorem rabinOobPanic_eq_false {k L : Nat} {shares : List RabinShareL}
    (h : ∀ x, x < k →
      (shares.getD 0 default).body.length ≤ (shares.getD x default).body.length) :
    rabinOobPanic k L shares = false := by
  by_contra hne
  have htrue : rabinOobPanic k L shares = true := by
    cases hb : rabinOobPanic k L shares
    · exact absurd hb hne
    · rfl
  rw [rabinOobPanic, List.any_eq_true] at htrue
  obtain ⟨i, hi, htrue⟩ := htrue
  rw [List.mem_range] at hi
  rw [List.any_eq_true] at htrue
  obtain ⟨j, _, htrue⟩ := htrue
  rw [Bool.and_eq_true] at htrue
  rw [List.any_eq_true] at htrue
  obtain ⟨-, x, hx, htrue⟩ := htrue
  rw [List.mem_range] at hx
  rw [decide_eq_true_eq] at htrue
  have hbx := h x hx
  omega

theorem rabinRecontruct_ok {k L : Nat} {shares : List RabinShareL}
    (hlen : ¬ shares.length < k)
    (hsz : rabinSharesSize shares = some L)
    (hguard : rabinOobPanic k L shares = false) :
    rabinRecontruct k shares = .ok ((List.range L).map fun idx =>
      if h : 0 < k ∧ idx / k < (shares.getD 0 default).body.length then
        (∑ x : Fin k,
          generateDecoder k (shares.map (·.id)) ⟨idx % k, Nat.mod_lt idx h.1⟩ x *
            GFb.ofByte ((shares.getD x.val default).body.getD (idx / k) 0)).val
      else 0) := by
  rw [rabinRecontruct, if_neg hlen, hsz]
  show (if rabinOobPanic k L shares then RRes.crash else _) = _
  rw [hguard, if_neg Bool.false_ne_true]

theorem rabinRecontruct_oob_crash {k L : Nat} {shares : List RabinShareL}
    (hlen : ¬ shares.length < k)
    (hsz : rabinSharesSize shares = some L)
    (hguard : rabinOobPanic k L shares = true) :
    rabinRecontruct k shares = .crash := by
  rw [rabinRecontruct, if_neg hlen, hsz]
  show (if rabinOobPanic k L shares then RRes.crash else _) = _
  rw [hguard, if_pos rfl]

/-! ### Krawczyk secret sharing (src/secret.rs lines 116-198)

The stream cipher is an external collaborator (spec §6): it is modelled as a
pair of functions `enc`/`dec` taking the 44-byte key‖nonce block and the
buffer; the spec requires `dec kn (enc kn x) = x` and in-place operation
(hence length preservation).  `KrawczykSecretSharing::new` clones the RNG, so
the key/nonce draw and the inner Shamir sharer read the same stream from the
same start. -/

/-- `KrawczykSecretSharing::share` (src/secret.rs lines 136-170): draw 44
random bytes, encrypt the data in place, Rabin-share the ciphertext,
Shamir-share the 44-byte key block, and zip the results; `length` is the
plaintext length and `key` the first 44 bytes of the Shamir body
(`copy_from_slice` — the body has exactly 44 bytes). -/
def krawczykShare (n k : Nat) (rng : Nat → Nat)
    (enc : List Nat → List Nat → List Nat) (data : List Nat) :
    RRes (List KrawczykShareL) :=
  let keyNonce := (List.range 44).map (byteAt rng)
  let c := enc keyNonce data
  match rabinShare n k c with
  | .crash => .crash
  | .fail => .fail
  | .ok rshares =>
    match shamirShare n k rng keyNonce with
    | none => .fail
    | some kshares =>
      .ok ((rshares.zip kshares).map fun p =>
        { id := p.1.id
          length := data.length
          key := p.2.body.take 44
          body := p.1.body })

/-- `KrawczykSecretSharing::recontruct` (src/secret.rs lines 172-197): split
each share into its Shamir view `{id, body := key}` and Rabin view
`{id, length, body}`, reconstruct the key block and the ciphertext, then
decrypt. -/
def krawczykRecontruct (k : Nat) (dec : List Nat → List Nat → List Nat)
    (shares : List KrawczykShareL) : RRes (List Nat) :=
  let sshares := shares.map fun s => ShamirShareL.mk s.id s.key
  let rshares := shares.map fun s => RabinShareL.mk s.id s.length s.body
  match shamirRecontruct k sshares with
  | .crash => .crash
  | .fail => .fail
  | .ok keyNonce =>
    match rabinRecontruct k rshares with
    | .crash => .crash
    | .fail => .fail
    | .ok c => .ok (dec keyNonce c)

/-! ### Streaming Shamir variant (src/secret_iter.rs)

`ShamirIterSecretSharing::share` clones the RNG into a `SharedIter` (external
`shared_iter` crate).  Modelled from the spec (§4.5, §9): the n iterators
share one underlying RNG output sequence with aligned cursors, so iterator
`x` consumes, for input position `i`, exactly the stream bytes
`(k-1)*i .. (k-1)*i + k-2` — the same bytes as every other iterator at that
position, each stream position being produced once. -/

/-- The collected output of one `ShareIter` (src/secret_iter.rs lines 33-53):
for each source byte `v`, the byte
`once(v).chain(rng.take(k-1)).enumerate().map(|(j, r)| x.pow(j) * GF(r)).sum()`. -/
structure ShareIterL where
  x : Nat
  body : List Nat
deriving DecidableEq

/-- Coefficient `j` of the iterator polynomial at input position `i`:
element 0 of the chain is the source byte, element `j ≥ 1` is shared-stream
byte `(k-1)*i + (j-1)`. -/
def shamirIterCoef (k : Nat) (rng : Nat → Nat) (data : List Nat) (i j : Nat) : Nat :=
  if j = 0 then data.getD i 0 else byteAt rng ((k - 1) * i + (j - 1))

/-- `ShamirIterSecretSharing::share` (src/secret_iter.rs lines 55-74) with
every returned iterator fully collected: one `ShareIter` per `x ∈ 1..=n`. -/
def shamirIterShare (n k : Nat) (rng : Nat → Nat) (data : List Nat) : List ShareIterL :=
  (List.range n).map fun xm =>
    { x := xm + 1
      body := (List.range data.length).map fun i =>
        (∑ j ∈ Finset.range k,
          GFb.ofByte (xm + 1) ^ j * GFb.ofByte (shamirIterCoef k rng data i j)).val }

/-! ### List access helpers -/

theorem getD_map_range {α : Type} (g : Nat → α) {L i : Nat} (h : i < L) (d : α) :
    ((List.range L).map g).getD i d = g i := by
  rw [List.getD_eq_getElem _ _ (by simpa using h)]
  simp

theorem range_map_getD (l : List Nat) :
    (List.range l.length).map (fun i => l.getD i 0) = l := by
  apply List.ext_getElem
  · simp
  · intro i h1 h2
    simp [List.getD, List.getElem?_eq_getElem h2]

theorem getD_mem_of_lt {l : List Nat} {i : Nat} (h : i < l.length) (d : Nat) :
    l.getD i d ∈ l := by
  rw [List.getD_eq_getElem l d h]
  exact l.getElem_mem h

/-! ### Lagrange interpolation at zero: the code's reconstruction formula -/

theorem lagrange_formula (k : Nat) (hk : 0 < k) (v c : Nat → GFb)
    (hv : Set.InjOn v (Finset.range k)) :
    ∑ j ∈ Finset.range k, (∑ j' ∈ Finset.range k, v j ^ j' * c j') *
      ∏ m ∈ (Finset.range k).filter (· ≠ j), v m / (v m - v j) = c 0 := by
  set p : Polynomial GFb := ∑ j' ∈ Finset.range k, Polynomial.C (c j') * Polynomial.X ^ j'
    with hp
  have hdeg : p.degree < (Finset.range k).card := by
    rw [Finset.card_range]
    apply lt_of_le_of_lt (Polynomial.degree_sum_le _ _)
    rw [Finset.sup_lt_iff (by exact_mod_cast WithBot.bot_lt_coe k)]
    intro j' hj'
    apply lt_of_le_of_lt (Polynomial.degree_C_mul_X_pow_le _ _)
    exact_mod_cast Finset.mem_range.mp hj'
  have heval : ∀ j, p.eval (v j) = ∑ j' ∈ Finset.range k, v j ^ j' * c j' := by
    intro j
    rw [hp, Polynomial.eval_finset_sum]
    apply Finset.sum_congr rfl
    intro j' _
    rw [Polynomial.eval_mul, Polynomial.eval_C, Polynomial.eval_pow, Polynomial.eval_X, mul_comm]
  have hinterp := Lagrange.eq_interpolate (f := p) hv hdeg
  have hz : p.eval 0 = c 0 := by
    rw [hp, Polynomial.eval_finset_sum]
    rw [Finset.sum_eq_single 0]
    · simp
    · intro j' hj' hne
      simp [Polynomial.eval_mul, zero_pow hne]
    · intro h
      exact absurd (Finset.mem_range.mpr hk) h
  have hz2 : (Lagrange.interpolate (Finset.range k) v fun i => p.eval (v i)).eval 0 = c 0 := by
    rw [← hinterp, hz]
  rw [Lagrange.interpolate_apply, Polynomial.eval_finset_sum] at hz2
  rw [← hz2]
  apply Finset.sum_congr rfl
  intro j hj
  rw [Polynomial.eval_mul, Polynomial.eval_C, heval j]
  congr 1
  rw [Lagrange.basis, Polynomial.eval_prod, Finset.filter_ne']
  apply Finset.prod_congr rfl
  intro m hm
  rw [Lagrange.basisDivisor, Polynomial.eval_mul, Polynomial.eval_C, Polynomial.eval_sub,
    Polynomial.eval_X, Polynomial.eval_C]
  rw [zero_sub, GFb.neg_eq (v m), div_eq_mul_inv, mul_comm]
  congr 2
  rw [sub_eq_add_neg, sub_eq_add_neg, GFb.neg_eq (v m), GFb.neg_eq (v j), add_comm]

theorem shamirSharesSize_eq {shares : List ShamirShareL} {L : Nat}
    (hne : shares ≠ []) (h : ∀ s ∈ shares, s.body.length = L) :
    shamirSharesSize shares = some L := by
  match shares, hne with
  | s :: rest, _ =>
    have hs : s.body.length = L := h s (by simp)
    simp only [shamirSharesSize]
    rw [if_pos]
    · rw [hs]
    · rw [List.all_eq_true]
      intro t ht
      have h2 : t.body.length = L := h t ht
      simp [h2, hs]

theorem shamirRoundTrip {n k : Nat} (rng : Nat → Nat) (data : List Nat)
    (hk : 1 ≤ k) (hkn : k ≤ n) (hn : n ≤ 255)
    (hdata : ∀ b ∈ data, b < 256)
    (pick : Nat → Nat) (hpickn : ∀ t, t < k → pick t < n)
    (hpick : Set.InjOn pick (Finset.range k))
    {out : List ShamirShareL} (hout : shamirShare n k rng data = some out) :
    shamirRecontruct k ((List.range k).map fun t => out.getD (pick t) default) = .ok data := by
  have hcond : ¬ (k < 1 ∨ k > n) := by omega
  rw [shamirShare, if_neg hcond, Option.some_inj] at hout
  subst hout
  set shareFn : Nat → ShamirShareL := fun x =>
    { id := if data.length = 0 then 0 else x + 1
      body := (List.range data.length).map fun i => shamirByte k rng data i (x + 1) }
    with hshareFn
  set sel := (List.range k).map fun t =>
    ((List.range n).map shareFn).getD (pick t) default with hsel
  have hsellen : sel.length = k := by simp [hsel]
  have hselget : ∀ j, j < k → sel.getD j default = shareFn (pick j) := by
    intro j hj
    rw [hsel, getD_map_range _ hj, getD_map_range _ (hpickn j hj)]
  have hbodylen : ∀ s ∈ sel, s.body.length = data.length := by
    intro s hs
    rw [hsel] at hs
    rcases List.mem_map.mp hs with ⟨t, ht, rfl⟩
    rw [getD_map_range _ (hpickn t (List.mem_range.mp ht))]
    simp [hshareFn]
  have hne : sel ≠ [] := by
    intro h
    rw [h] at hsellen
    simp at hsellen
    omega
  have hsize : shamirSharesSize sel = some data.length := shamirSharesSize_eq hne hbodylen
  rw [shamirRecontruct, if_neg (by rw [hsellen]; omega)]
  rw [hsize]
  show RRes.ok ((List.range data.length).map fun i => shamirRecByte k sel i) = RRes.ok data
  congr 1
  have hbyte : ∀ i, i < data.length → shamirRecByte k sel i = data.getD i 0 := by
    intro i hi
    have hlen0 : data.length ≠ 0 := by omega
    have hVinj : Set.InjOn (fun t => GFb.ofByte (pick t + 1)) (Finset.range k) := by
      intro t1 h1 t2 h2 he
      have b1 : pick t1 + 1 < 256 := by
        have := hpickn t1 (Finset.mem_range.mp h1)
        omega
      have b2 : pick t2 + 1 < 256 := by
        have := hpickn t2 (Finset.mem_range.mp h2)
        omega
      have hval : pick t1 = pick t2 := by
        have hc := congrArg GFb.val he
        simp only [GFb.val_ofByte b1, GFb.val_ofByte b2] at hc
        omega
      exact hpick h1 h2 hval
    rw [shamirRecByte]
    have hsum : (∑ j ∈ Finset.range k,
        GFb.ofByte ((sel.getD j default).body.getD i 0) *
          ∏ m ∈ (Finset.range k).filter (· ≠ j),
            GFb.ofByte (sel.getD m default).id /
              (GFb.ofByte (sel.getD m default).id - GFb.ofByte (sel.getD j default).id))
        = ∑ j ∈ Finset.range k,
            (∑ j' ∈ Finset.range k, (fun t => GFb.ofByte (pick t + 1)) j ^ j' *
              (fun j' => GFb.ofByte (shamirCoef k rng data i j')) j') *
            ∏ m ∈ (Finset.range k).filter (· ≠ j),
              (fun t => GFb.ofByte (pick t + 1)) m /
                ((fun t => GFb.ofByte (pick t + 1)) m - (fun t => GFb.ofByte (pick t + 1)) j) := by
      apply Finset.sum_congr rfl
      intro j hj
      have hjk := Finset.mem_range.mp hj
      have hbody : (sel.getD j default).body.getD i 0 = shamirByte k rng data i (pick j + 1) := by
        rw [hselget j hjk]
        simp only [hshareFn]
        exact getD_map_range _ hi 0
      have hid : (sel.getD j default).id = pick j + 1 := by
        rw [hselget j hjk]
        simp [hshareFn, hlen0]
      have hb : GFb.ofByte (shamirByte k rng data i (pick j + 1))
          = ∑ j' ∈ Finset.range k, GFb.ofByte (pick j + 1) ^ j' *
              GFb.ofByte (shamirCoef k rng data i j') := by
        rw [shamirByte, GFb.ofByte_val]
      have hprod : (∏ m ∈ (Finset.range k).filter (· ≠ j),
            GFb.ofByte (sel.getD m default).id /
              (GFb.ofByte (sel.getD m default).id - GFb.ofByte (sel.getD j default).id))
          = ∏ m ∈ (Finset.range k).filter (· ≠ j),
              GFb.ofByte (pick m + 1) /
                (GFb.ofByte (pick m + 1) - GFb.ofByte (pick j + 1)) := by
        apply Finset.prod_congr rfl
        intro m hm
        have hmk := Finset.mem_range.mp (Finset.mem_filter.mp hm).1
        have hidm : (sel.getD m default).id = pick m + 1 := by
          rw [hselget m hmk]
          simp [hshareFn, hlen0]
        rw [hidm, hid]
      rw [hbody, hb, hprod]
    rw [hsum, lagrange_formula k (by omega) _ _ hVinj]
    simp only [shamirCoef, if_pos rfl]
    exact GFb.val_ofByte (hdata _ (getD_mem_of_lt hi 0))
  calc (List.range data.length).map (fun i => shamirRecByte k sel i)
      = (List.range data.length).map (fun i => data.getD i 0) := by
        apply List.map_congr_left
        intro i hi
        exact hbyte i (List.mem_range.mp hi)
    _ = data := range_map_getD data

/-! ### Gauss-Jordan correctness: closed form of the elimination loop -/

theorem elim_fold {k : Nat} (i : Fin k) (A B : Matrix (Fin k) (Fin k) GFb) :
    ∀ (l : List (Fin k)) (st : Matrix (Fin k) (Fin k) GFb × Matrix (Fin k) (Fin k) GFb),
      l.Nodup →
      st.1 i = A i → st.2 i = B i →
      (∀ j ∈ l, j ≠ i → st.1 j = A j ∧ st.2 j = B j) →
      ∀ j : Fin k,
        ((l.foldl (elimStep i) st).1 j
          = if j ∈ l ∧ j ≠ i then (fun col => A j col - A i col * A j i) else st.1 j)
        ∧ ((l.foldl (elimStep i) st).2 j
          = if j ∈ l ∧ j ≠ i then (fun col => B j col - B i col * A j i) else st.2 j) := by
  intro l
  induction l with
  | nil =>
    intro st _ _ _ _ j
    simp
  | cons x xs ih =>
    intro st hnd hA hB hrows j
    have hndtail : xs.Nodup := (List.nodup_cons.mp hnd).2
    have hxnotmem : x ∉ xs := (List.nodup_cons.mp hnd).1
    rw [List.foldl_cons]
    by_cases hx : x = i
    · subst hx
      have hstep : elimStep x st x = st := by
        simp [elimStep]
      rw [hstep]
      have hres := ih st hndtail hA hB
        (fun j hj hji => hrows j (List.mem_cons_of_mem x hj) hji) j
      obtain ⟨hr1, hr2⟩ := hres
      by_cases hj : j ∈ xs ∧ j ≠ x
      · have hj' : j ∈ x :: xs ∧ j ≠ x := ⟨List.mem_cons_of_mem x hj.1, hj.2⟩
        rw [if_pos hj] at hr1 hr2
        simp only [if_pos hj']
        exact ⟨hr1, hr2⟩
      · have hj' : ¬ (j ∈ x :: xs ∧ j ≠ x) := by
          intro hcon
          rcases List.mem_cons.mp hcon.1 with h1 | h1
          · exact hcon.2 h1
          · exact hj ⟨h1, hcon.2⟩
        rw [if_neg hj] at hr1 hr2
        simp only [if_neg hj']
        exact ⟨hr1, hr2⟩
    · -- x ≠ i : the step updates row x of both matrices (or skips when the
      -- coefficient is zero, which yields the same row values)
      have hxA : st.1 x = A x := (hrows x (List.mem_cons_self x xs) hx).1
      have hxB : st.2 x = B x := (hrows x (List.mem_cons_self x xs) hx).2
      set st' := elimStep i st x with hst'
      have h1i : st'.1 i = A i := by
        rw [hst', elimStep]
        rw [if_neg hx]
        dsimp only
        split
        · exact hA
        · show (rowSubMul st.1 x i _) i = A i
          rw [rowSubMul, Matrix.updateRow_ne (Ne.symm hx)]
          exact hA
      have h2i : st'.2 i = B i := by
        rw [hst', elimStep]
        rw [if_neg hx]
        dsimp only
        split
        · exact hB
        · show (rowSubMul st.2 x i _) i = B i
          rw [rowSubMul, Matrix.updateRow_ne (Ne.symm hx)]
          exact hB
      have h1x : st'.1 x = fun col => A x col - A i col * A x i := by
        rw [hst', elimStep, if_neg hx]
        dsimp only
        split
        · next hc =>
          funext col
          rw [hxA] at hc ⊢
          rw [hc, mul_zero, sub_zero]
        · show (rowSubMul st.1 x i (st.1 x i)) x = _
          rw [rowSubMul, Matrix.updateRow_self]
          funext col
          rw [hxA, hA]
      have h2x : st'.2 x = fun col => B x col - B i col * A x i := by
        rw [hst', elimStep, if_neg hx]
        dsimp only
        split
        · next hc =>
          funext col
          rw [hxA] at hc
          rw [hc, mul_zero, sub_zero, hxB]
        · show (rowSubMul st.2 x i (st.1 x i)) x = _
          rw [rowSubMul, Matrix.updateRow_self]
          funext col
          rw [hxA, hB, hxB]
      have hother : ∀ j' : Fin k, j' ≠ x → st'.1 j' = st.1 j' ∧ st'.2 j' = st.2 j' := by
        intro j' hj'
        rw [hst', elimStep, if_neg hx]
        dsimp only
        split
        · exact ⟨rfl, rfl⟩
        · constructor
          · show (rowSubMul st.1 x i _) j' = st.1 j'
            rw [rowSubMul, Matrix.updateRow_ne hj']
          · show (rowSubMul st.2 x i _) j' = st.2 j'
            rw [rowSubMul, Matrix.updateRow_ne hj']
      have hrows' : ∀ j' ∈ xs, j' ≠ i → st'.1 j' = A j' ∧ st'.2 j' = B j' := by
        intro j' hj' hji
        have hjx : j' ≠ x := fun h => hxnotmem (h ▸ hj')
        rw [(hother j' hjx).1, (hother j' hjx).2]
        exact hrows j' (List.mem_cons_of_mem x hj') hji
      obtain ⟨hr1, hr2⟩ := ih st' hndtail h1i h2i hrows' j
      by_cases hjx : j = x
      · subst hjx
        have hnotxs : ¬ (j ∈ xs ∧ j ≠ i) := fun h => hxnotmem h.1
        have hyes : j ∈ j :: xs ∧ j ≠ i := ⟨List.mem_cons_self j xs, hx⟩
        rw [if_neg hnotxs] at hr1 hr2
        simp only [if_pos hyes]
        rw [hr1, hr2]
        exact ⟨h1x, h2x⟩
      · by_cases hj : j ∈ xs ∧ j ≠ i
        · have hj' : j ∈ x :: xs ∧ j ≠ i := ⟨List.mem_cons_of_mem x hj.1, hj.2⟩
          rw [if_pos hj] at hr1 hr2
          simp only [if_pos hj']
          exact ⟨hr1, hr2⟩
        · have hj' : ¬ (j ∈ x :: xs ∧ j ≠ i) := by
            intro hcon
            rcases List.mem_cons.mp hcon.1 with h1 | h1
            · exact hjx h1
            · exact hj ⟨h1, hcon.2⟩
          rw [if_neg hj] at hr1 hr2
          simp only [if_neg hj']
          rw [hr1, hr2]
          exact ⟨(hother j hjx).1, (hother j hjx).2⟩

/-! ### Gauss-Jordan correctness: one pivot step as matrix multiplication -/

theorem pivot_closed {k : Nat} (T R : Matrix (Fin k) (Fin k) GFb) (i : Fin k) :
    (∀ j, (pivotStep (T, R) i).1 j =
      if j = i then rowScale T i (T i i)⁻¹ i
      else fun col => rowScale T i (T i i)⁻¹ j col -
        rowScale T i (T i i)⁻¹ i col * rowScale T i (T i i)⁻¹ j i)
    ∧ (∀ j, (pivotStep (T, R) i).2 j =
      if j = i then rowScale R i (T i i)⁻¹ i
      else fun col => rowScale R i (T i i)⁻¹ j col -
        rowScale R i (T i i)⁻¹ i col * rowScale T i (T i i)⁻¹ j i) := by
  have hfold := elim_fold i (rowScale T i (T i i)⁻¹) (rowScale R i (T i i)⁻¹)
    (List.finRange k) (rowScale T i (T i i)⁻¹, rowScale R i (T i i)⁻¹)
    (List.nodup_finRange k) rfl rfl (fun _ _ _ => ⟨rfl, rfl⟩)
  constructor
  · intro j
    have h := (hfold j).1
    rw [pivotStep]
    by_cases hj : j = i
    · subst hj
      rw [if_pos rfl]
      rw [h, if_neg (by simp)]
    · rw [if_neg hj]
      rw [h, if_pos ⟨List.mem_finRange j, hj⟩]
  · intro j
    have h := (hfold j).2
    rw [pivotStep]
    by_cases hj : j = i
    · subst hj
      rw [if_pos rfl]
      rw [h, if_neg (by simp)]
    · rw [if_neg hj]
      rw [h, if_pos ⟨List.mem_finRange j, hj⟩]

/-- The row-scaling elementary matrix: identity except entry `(i, i) = s`. -/
def scaleMat {k : Nat} (i : Fin k) (s : GFb) : Matrix (Fin k) (Fin k) GFb :=
  Matrix.of fun r c => if r = i then (if c = i then s else 0) else (if r = c then 1 else 0)

theorem scaleMat_mul {k : Nat} (i : Fin k) (s : GFb) (m : Matrix (Fin k) (Fin k) GFb) :
    scaleMat i s * m = rowScale m i s := by
  ext r c
  rw [Matrix.mul_apply]
  by_cases hr : r = i
  · subst hr
    have hterm : ∀ x : Fin k, scaleMat r s r x * m x c = if x = r then s * m x c else 0 := by
      intro x
      by_cases hx : x = r <;> simp [scaleMat, hx]
    rw [Finset.sum_congr rfl (fun x _ => hterm x), Finset.sum_ite_eq' Finset.univ r _]
    simp [rowScale, mul_comm]
  · have hterm : ∀ x : Fin k, scaleMat i s r x * m x c = if x = r then m x c else 0 := by
      intro x
      by_cases hx : x = r
      · subst hx
        simp [scaleMat, hr]
      · have hrx : ¬ r = x := fun h => hx h.symm
        simp [scaleMat, hx, hrx, hr]
    rw [Finset.sum_congr rfl (fun x _ => hterm x), Finset.sum_ite_eq' Finset.univ r _]
    simp [rowScale, Matrix.updateRow_ne hr]

/-- The column-elimination elementary matrix: identity with extra entries
`-(cf r)` in column `i`. -/
def elimMat {k : Nat} (i : Fin k) (cf : Fin k → GFb) : Matrix (Fin k) (Fin k) GFb :=
  Matrix.of fun r c =>
    if r = i then (if c = i then 1 else 0)
    else if c = i then -(cf r) else if r = c then 1 else 0

theorem elimMat_mul {k : Nat} (i : Fin k) (cf : Fin k → GFb)
    (m : Matrix (Fin k) (Fin k) GFb) (r c : Fin k) :
    (elimMat i cf * m) r c = if r = i then m i c else m r c - m i c * cf r := by
  rw [Matrix.mul_apply]
  by_cases hr : r = i
  · subst hr
    have hterm : ∀ x : Fin k, elimMat r cf r x * m x c = if x = r then m x c else 0 := by
      intro x
      by_cases hx : x = r <;> simp [elimMat, hx]
    rw [Finset.sum_congr rfl (fun x _ => hterm x), Finset.sum_ite_eq' Finset.univ r _]
    simp
  · have hterm : ∀ x : Fin k, elimMat i cf r x * m x c =
        (if x = i then -(cf r) * m x c else 0) + (if x = r then m x c else 0) := by
      intro x
      by_cases hx : x = i
      · subst hx
        simp [elimMat, hr, Ne.symm hr]
      · by_cases hx' : x = r
        · subst hx'
          simp [elimMat, hx, hr]
        · have hrx : ¬ r = x := fun h => hx' h.symm
          simp [elimMat, hx, hx', hrx, hr]
    rw [Finset.sum_congr rfl (fun x _ => hterm x), Finset.sum_add_distrib,
      Finset.sum_ite_eq' Finset.univ i _, Finset.sum_ite_eq' Finset.univ r _]
    rw [if_pos (Finset.mem_univ i), if_pos (Finset.mem_univ r), if_neg hr]
    show -(cf r) * m i c + m r c = m r c - m i c * cf r
    rw [neg_mul, GFb.neg_eq, GFb.sub_eq_add, add_comm (m r c), mul_comm (cf r)]

theorem pivot_mul {k : Nat} (T R : Matrix (Fin k) (Fin k) GFb) (i : Fin k) :
    ∃ G, pivotStep (T, R) i = (G * T, G * R) := by
  refine ⟨elimMat i (fun j => rowScale T i (T i i)⁻¹ j i) * scaleMat i (T i i)⁻¹, ?_⟩
  have hT : (pivotStep (T, R) i).1
      = elimMat i (fun j => rowScale T i (T i i)⁻¹ j i) * scaleMat i (T i i)⁻¹ * T := by
    ext j col
    rw [Matrix.mul_assoc, scaleMat_mul, elimMat_mul]
    have hc := congrFun ((pivot_closed T R i).1 j) col
    rw [hc]
    by_cases hj : j = i <;> simp [hj]
  have hR : (pivotStep (T, R) i).2
      = elimMat i (fun j => rowScale T i (T i i)⁻¹ j i) * scaleMat i (T i i)⁻¹ * R := by
    ext j col
    rw [Matrix.mul_assoc, scaleMat_mul, elimMat_mul]
    have hc := congrFun ((pivot_closed T R i).2 j) col
    rw [hc]
    by_cases hj : j = i <;> simp [hj]
  exact Prod.ext hT hR

/-! ### Leading principal blocks and their determinants under row operations -/

/-- The leading `t × t` principal submatrix. -/
def leadB {k : Nat} (m : Matrix (Fin k) (Fin k) GFb) (t : Nat) (h : t ≤ k) :
    Matrix (Fin t) (Fin t) GFb :=
  Matrix.of fun r c => m (Fin.castLE h r) (Fin.castLE h c)

theorem leadB_updateRow_lt {k t : Nat} (m : Matrix (Fin k) (Fin k) GFb)
    (v : Fin k → GFb) {i : Fin k} (h : t ≤ k) (hi : i.val < t) :
    leadB (m.updateRow i v) t h
      = (leadB m t h).updateRow ⟨i.val, hi⟩ (fun c => v (Fin.castLE h c)) := by
  ext r c
  show (m.updateRow i v) (Fin.castLE h r) (Fin.castLE h c) = _
  by_cases hr : r = ⟨i.val, hi⟩
  · subst hr
    have : Fin.castLE h (⟨i.val, hi⟩ : Fin t) = i := by
      apply Fin.ext
      rfl
    rw [this, Matrix.updateRow_self, Matrix.updateRow_self]
  · have hne : Fin.castLE h r ≠ i := by
      intro hcon
      apply hr
      apply Fin.ext
      have := congrArg Fin.val hcon
      simpa using this
    rw [Matrix.updateRow_ne hne, Matrix.updateRow_ne hr]
    rfl

theorem leadB_updateRow_ge {k t : Nat} (m : Matrix (Fin k) (Fin k) GFb)
    (v : Fin k → GFb) {i : Fin k} (h : t ≤ k) (hi : ¬ i.val < t) :
    leadB (m.updateRow i v) t h = leadB m t h := by
  ext r c
  show (m.updateRow i v) (Fin.castLE h r) (Fin.castLE h c) = _
  have hne : Fin.castLE h r ≠ i := by
    intro hcon
    have := congrArg Fin.val hcon
    simp at this
    omega
  rw [Matrix.updateRow_ne hne]
  rfl

theorem det_leadB_rowScale {k t : Nat} (T : Matrix (Fin k) (Fin k) GFb)
    {i : Fin k} (s : GFb) (h : t ≤ k) (hi : i.val < t) :
    (leadB (rowScale T i s) t h).det = s * (leadB T t h).det := by
  rw [rowScale, leadB_updateRow_lt T _ h hi]
  have hrow : (fun c => T i (Fin.castLE h c) * s) = s • (leadB T t h) ⟨i.val, hi⟩ := by
    funext c
    show T i (Fin.castLE h c) * s = s * (leadB T t h) ⟨i.val, hi⟩ c
    rw [mul_comm]
    congr 1
  rw [hrow, Matrix.det_updateRow_smul, Matrix.updateRow_eq_self]

theorem det_leadB_elimFold {k t : Nat} (i : Fin k) (h : t ≤ k) (hi : i.val < t) :
    ∀ (l : List (Fin k)) (st : Matrix (Fin k) (Fin k) GFb × Matrix (Fin k) (Fin k) GFb),
      (leadB ((l.foldl (elimStep i) st).1) t h).det = (leadB st.1 t h).det := by
  intro l
  induction l with
  | nil => intro st; rfl
  | cons x xs ih =>
    intro st
    rw [List.foldl_cons, ih (elimStep i st x)]
    rw [elimStep]
    by_cases hx : x = i
    · rw [if_pos hx]
    · rw [if_neg hx]
      dsimp only
      split
      · rfl
      · show (leadB (rowSubMul st.1 x i (st.1 x i)) t h).det = _
        rw [rowSubMul]
        by_cases hxt : x.val < t
        · rw [leadB_updateRow_lt _ _ h hxt]
          have hrow : (fun c => st.1 x (Fin.castLE h c) - st.1 i (Fin.castLE h c) * st.1 x i)
              = (leadB st.1 t h) ⟨x.val, hxt⟩ +
                (-(st.1 x i)) • (leadB st.1 t h) ⟨i.val, hi⟩ := by
            funext c
            show st.1 x (Fin.castLE h c) - st.1 i (Fin.castLE h c) * st.1 x i
              = (leadB st.1 t h) ⟨x.val, hxt⟩ c + (-(st.1 x i)) * (leadB st.1 t h) ⟨i.val, hi⟩ c
            show st.1 x (Fin.castLE h c) - st.1 i (Fin.castLE h c) * st.1 x i
              = st.1 x (Fin.castLE h c) + (-(st.1 x i)) * st.1 i (Fin.castLE h c)
            rw [neg_mul, GFb.neg_eq, GFb.sub_eq_add, mul_comm]
          rw [hrow]
          apply Matrix.det_updateRow_add_smul_self
          intro hcon
          apply hx
          apply Fin.ext
          have := congrArg Fin.val hcon
          simpa using this
        · rw [leadB_updateRow_ge _ _ h hxt]

theorem det_identCols {t : Nat} (B : Matrix (Fin (t + 1)) (Fin (t + 1)) GFb)
    (hcols : ∀ c j : Fin (t + 1), c.val < t → B j c = if j = c then 1 else 0) :
    B.det = B (Fin.last t) (Fin.last t) := by
  rw [Matrix.det_succ_row B (Fin.last t)]
  rw [Finset.sum_eq_single (Fin.last t)]
  · have hminor : B.submatrix (Fin.last t).succAbove (Fin.last t).succAbove = 1 := by
      ext r c
      rw [Matrix.submatrix_apply, Fin.succAbove_last_apply, Fin.succAbove_last_apply]
      have hclt : (Fin.castSucc c).val < t := c.isLt
      rw [hcols _ _ hclt]
      have hiff : Fin.castSucc r = Fin.castSucc c ↔ r = c := by
        constructor
        · intro hh
          exact Fin.castSucc_injective t hh
        · intro hh
          rw [hh]
      rw [Matrix.one_apply]
      by_cases hrc : r = c
      · rw [if_pos hrc, if_pos (hiff.mpr hrc)]
      · rw [if_neg hrc, if_neg (fun hh => hrc (hiff.mp hh))]
    rw [hminor, Matrix.det_one, mul_one]
    have hneg : (-1 : GFb) = 1 := GFb.neg_eq 1
    rw [hneg, one_pow, one_mul]
  · intro j _ hne
    have hjt : j.val < t := by
      have h1 : j.val ≠ t := fun h => hne (Fin.ext h)
      have h2 : j.val < t + 1 := j.isLt
      omega
    rw [hcols j (Fin.last t) hjt]
    rw [if_neg (fun h => hne h.symm), mul_zero, zero_mul]
  · intro h
    exact absurd (Finset.mem_univ _) h

/-! ### The Gauss-Jordan main induction -/

/-- The state of `inverse`'s outer loop after the first `m` pivots. -/
def gjStage {k : Nat} (M : Matrix (Fin k) (Fin k) GFb) (m : Nat) :
    Matrix (Fin k) (Fin k) GFb × Matrix (Fin k) (Fin k) GFb :=
  ((List.finRange k).take m).foldl pivotStep (M, 1)

theorem gjStage_zero {k : Nat} (M : Matrix (Fin k) (Fin k) GFb) : gjStage M 0 = (M, 1) := rfl

theorem gjStage_succ {k : Nat} (M : Matrix (Fin k) (Fin k) GFb) {m : Nat} (hm : m < k) :
    gjStage M (m + 1) = pivotStep (gjStage M m) ⟨m, hm⟩ := by
  rw [gjStage, gjStage, List.take_succ]
  have hlen : m < (List.finRange k).length := by simpa using hm
  rw [List.getElem?_eq_getElem hlen]
  simp only [List.getElem_finRange, Option.toList_some, List.foldl_append, List.foldl_cons,
    List.foldl_nil]
  rfl

theorem inverse_eq_gjStage {k : Nat} (M : Matrix (Fin k) (Fin k) GFb) :
    inverse M = (gjStage M k).2 := by
  rw [inverse, gjStage]
  congr 1
  rw [List.take_of_length_le (by simp)]

theorem gj_invariant {k : Nat} (M : Matrix (Fin k) (Fin k) GFb)
    (hminors : ∀ t, (h : t < k) → (leadB M (t + 1) h).det ≠ 0) :
    ∀ m, m ≤ k →
      ((gjStage M m).1 = (gjStage M m).2 * M)
      ∧ (∀ c j : Fin k, c.val < m → (gjStage M m).1 j c = if j = c then 1 else 0)
      ∧ (∀ t, m ≤ t → (h : t < k) → (leadB (gjStage M m).1 (t + 1) h).det ≠ 0) := by
  intro m
  induction m with
  | zero =>
    intro _
    refine ⟨(one_mul M).symm, ?_, ?_⟩
    · intro c j hc
      omega
    · intro t _ h
      exact hminors t h
  | succ m ih =>
    intro hm1
    have hm : m < k := by omega
    obtain ⟨P1, P2, P3⟩ := ih (le_of_lt hm)
    set T := (gjStage M m).1 with hT
    set R := (gjStage M m).2 with hR
    set i : Fin k := ⟨m, hm⟩ with hi
    -- the pivot entry is the determinant of the leading (m+1)-block, up to the
    -- identity columns already produced, hence nonzero
    have hpivdet : (leadB T (m + 1) hm).det = T i i := by
      have hlast : Fin.castLE hm (Fin.last m) = i := by
        apply Fin.ext
        rfl
      have := det_identCols (leadB T (m + 1) hm) ?_
      · rw [this]
        show T (Fin.castLE hm (Fin.last m)) (Fin.castLE hm (Fin.last m)) = T i i
        rw [hlast]
      · intro c j hc
        show T (Fin.castLE hm j) (Fin.castLE hm c) = _
        rw [P2 (Fin.castLE hm c) (Fin.castLE hm j) (by simpa using hc)]
        by_cases hjc : j = c
        · rw [if_pos hjc, if_pos (by rw [hjc])]
        · rw [if_neg hjc, if_neg (fun hh => hjc (Fin.castLE_injective hm hh))]
    have hp : T i i ≠ 0 := by
      have h3 := P3 m le_rfl hm
      rw [hpivdet] at h3
      exact h3
    have hstep : gjStage M (m + 1) = pivotStep (T, R) i := by
      rw [gjStage_succ M hm]
    refine ⟨?_, ?_, ?_⟩
    · -- tmp = res * M is preserved: the pivot step multiplies both sides by
      -- the same elementary matrices
      obtain ⟨G, hG⟩ := pivot_mul T R i
      rw [hstep, hG]
      show G * T = G * R * M
      rw [Matrix.mul_assoc, ← P1]
    · -- columns 0..m of tmp are now identity columns
      intro c j hc
      rw [hstep]
      have hclosed := (pivot_closed T R i).1 j
      have hT1i : ∀ col, rowScale T i (T i i)⁻¹ i col = T i col * (T i i)⁻¹ := by
        intro col
        rw [rowScale, Matrix.updateRow_self]
      have hT1ne : ∀ j' col, j' ≠ i → rowScale T i (T i i)⁻¹ j' col = T j' col := by
        intro j' col hj'
        rw [rowScale, Matrix.updateRow_ne hj']
      by_cases hcm : c.val < m
      · have hic : i ≠ c := by
          intro hcon
          rw [hi] at hcon
          have := congrArg Fin.val hcon
          simp at this
          omega
        have hTic : T i c = 0 := by
          rw [P2 c i hcm, if_neg hic]
        by_cases hj : j = i
        · subst hj
          rw [hclosed, if_pos rfl, hT1i, hTic, zero_mul]
          rw [if_neg (hi ▸ hic)]
        · rw [hclosed, if_neg hj]
          show rowScale T i (T i i)⁻¹ j c -
            rowScale T i (T i i)⁻¹ i c * rowScale T i (T i i)⁻¹ j i
            = if j = c then 1 else 0
          rw [hT1ne j c hj, hT1i, hTic, zero_mul, zero_mul, sub_zero]
          exact P2 c j hcm
      · have hcm' : c.val = m := by
          have := c.isLt
          omega
        have hci : c = i := by
          apply Fin.ext
          rw [hcm']
        subst hci
        by_cases hj : j = i
        · subst hj
          rw [hclosed, if_pos rfl, if_pos rfl, hT1i]
          exact mul_inv_cancel₀ hp
        · rw [hclosed, if_neg hj, if_neg hj]
          show rowScale T i (T i i)⁻¹ j i -
            rowScale T i (T i i)⁻¹ i i * rowScale T i (T i i)⁻¹ j i = 0
          rw [hT1i, mul_inv_cancel₀ hp, one_mul, sub_self]
    · -- later leading minors stay nonzero: scaling multiplies them by the
      -- nonzero inverse of the pivot, eliminations leave them unchanged
      intro t ht h
      rw [hstep]
      have hfold : pivotStep (T, R) i
          = (List.finRange k).foldl (elimStep i)
              (rowScale T i (T i i)⁻¹, rowScale R i (T i i)⁻¹) := rfl
      rw [hfold]
      have hit : i.val < t + 1 := by
        rw [hi]
        simp
        omega
      rw [det_leadB_elimFold i h hit]
      show (leadB (rowScale T i (T i i)⁻¹) (t + 1) h).det ≠ 0
      rw [det_leadB_rowScale T (T i i)⁻¹ h hit]
      exact mul_ne_zero (inv_ne_zero hp) (P3 t (by omega) h)

theorem inverse_mul_eq_one {k : Nat} (M : Matrix (Fin k) (Fin k) GFb)
    (hminors : ∀ t, (h : t < k) → (leadB M (t + 1) h).det ≠ 0) :
    inverse M * M = 1 := by
  obtain ⟨P1, P2, _⟩ := gj_invariant M hminors k le_rfl
  have hT1 : (gjStage M k).1 = 1 := by
    ext j c
    rw [Matrix.one_apply]
    exact P2 c j c.isLt
  rw [inverse_eq_gjStage, ← P1, hT1]

/-! ### Vandermonde leading minors and the Rabin decoder -/

theorem vand_minors {k : Nat} (v : Nat → GFb) (hv : Set.InjOn v (Finset.range k)) :
    ∀ t, (h : t < k) →
      (leadB (Matrix.of fun i j : Fin k => v i.val ^ j.val) (t + 1) h).det ≠ 0 := by
  intro t h
  have hvand : leadB (Matrix.of fun i j : Fin k => v i.val ^ j.val) (t + 1) h
      = Matrix.vandermonde (fun r : Fin (t + 1) => v r.val) := by
    ext r c
    rfl
  rw [hvand, Matrix.det_vandermonde]
  apply Finset.prod_ne_zero_iff.mpr
  intro i _
  apply Finset.prod_ne_zero_iff.mpr
  intro j hj
  have hij : i < j := Finset.mem_Ioi.mp hj
  apply sub_ne_zero_of_ne
  intro hcon
  have hji : (j : Fin (t + 1)).val = i.val := by
    have hi' : (i : Fin (t + 1)).val ∈ Finset.range k := by
      simp only [Finset.mem_range]
      omega
    have hj' : (j : Fin (t + 1)).val ∈ Finset.range k := by
      simp only [Finset.mem_range]
      omega
    exact hv hj' hi' hcon
  omega

theorem getD_map {α β : Type} (f : α → β) (l : List α) {i : Nat} (h : i < l.length)
    (d : β) (d' : α) : (l.map f).getD i d = f (l.getD i d') := by
  rw [List.getD_eq_getElem _ _ (by simpa using h), List.getD_eq_getElem _ _ h]
  simp

theorem getD_take {α : Type} (l : List α) {i k : Nat} (h : i < k) (d : α) :
    (l.take k).getD i d = l.getD i d := by
  simp [List.getD, List.getElem?_take_of_lt h]

theorem getD_drop {α : Type} (l : List α) (n : Nat) (i : Nat) (d : α) :
    (l.drop n).getD i d = l.getD (n + i) d := by
  simp [List.getD]

theorem chunks_length {k : Nat} (hk : 1 ≤ k) (l : List Nat) :
    (chunks k l).length = (l.length + k - 1) / k := by
  suffices H : ∀ n (l : List Nat), l.length ≤ n → (chunks k l).length = (l.length + k - 1) / k by
    exact H l.length l le_rfl
  intro n
  induction n with
  | zero =>
    intro l hl
    have hnil : l = [] := List.eq_nil_of_length_eq_zero (by omega)
    subst hnil
    rw [chunks_unfold, if_neg (by omega), if_pos rfl]
    simp [Nat.div_eq_of_lt (by omega : k - 1 < k)]
  | succ n ih =>
    intro l hl
    by_cases hnil : l = []
    · subst hnil
      rw [chunks_unfold, if_neg (by omega), if_pos rfl]
      simp [Nat.div_eq_of_lt (by omega : k - 1 < k)]
    · rw [chunks_unfold, if_neg (by omega), if_neg hnil]
      have hL : 1 ≤ l.length := by
        have := List.length_pos.mpr hnil
        omega
      rw [List.length_cons, ih (l.drop k) (by simp; omega)]
      rw [List.length_drop]
      have hnum : l.length + k - 1 = (l.length - 1) + k := by omega
      rw [hnum, Nat.add_div_right _ (by omega)]
      by_cases hLk : l.length ≤ k
      · have h1 : l.length - k = 0 := by omega
        have h2 : (l.length - 1) / k = 0 := Nat.div_eq_of_lt (by omega)
        rw [h1, h2]
        simp [Nat.div_eq_of_lt (by omega : k - 1 < k)]
      · have h1 : l.length - k + k - 1 = (l.length - k - 1) + k := by omega
        have h2 : l.length - 1 = (l.length - k - 1) + k := by omega
        rw [h1, h2, Nat.add_div_right _ (by omega)]

theorem chunks_div_lt {k : Nat} (hk : 1 ≤ k) :
    ∀ (l : List Nat) (idx : Nat), idx < l.length → idx / k < (chunks k l).length := by
  suffices H : ∀ n (l : List Nat), l.length ≤ n → ∀ idx, idx < l.length →
      idx / k < (chunks k l).length by
    intro l idx h
    exact H l.length l le_rfl idx h
  intro n
  induction n with
  | zero =>
    intro l hl idx hidx
    omega
  | succ n ih =>
    intro l hl idx hidx
    have hnil : l ≠ [] := by
      intro h
      subst h
      simp at hidx
    rw [chunks_unfold, if_neg (by omega), if_neg hnil, List.length_cons]
    by_cases hik : idx < k
    · have : idx / k = 0 := Nat.div_eq_of_lt hik
      omega
    · have hrec : idx - k < (l.drop k).length := by
        simp
        omega
      have := ih (l.drop k) (by simp; omega) (idx - k) hrec
      have hdiv : idx / k = (idx - k) / k + 1 := by
        have h2 : idx = (idx - k) + k := by omega
        conv_lhs => rw [h2]
        rw [Nat.add_div_right _ (by omega)]
      omega

theorem chunks_coef {k : Nat} (hk : 1 ≤ k) :
    ∀ (l : List Nat) (i j : Nat), j < k → i < (chunks k l).length →
      ((chunks k l).getD i []).getD j 0 = l.getD (i * k + j) 0 := by
  suffices H : ∀ n (l : List Nat), l.length ≤ n → ∀ i j, j < k → i < (chunks k l).length →
      ((chunks k l).getD i []).getD j 0 = l.getD (i * k + j) 0 by
    intro l i j h1 h2
    exact H l.length l le_rfl i j h1 h2
  intro n
  induction n with
  | zero =>
    intro l hl i j hj hi
    have hnil : l = [] := List.eq_nil_of_length_eq_zero (by omega)
    subst hnil
    rw [chunks_unfold, if_neg (by omega), if_pos rfl] at hi
    simp at hi
  | succ n ih =>
    intro l hl i j hj hi
    have hnil : l ≠ [] := by
      intro h
      subst h
      rw [chunks_unfold, if_neg (by omega), if_pos rfl] at hi
      simp at hi
    rw [chunks_unfold, if_neg (by omega), if_neg hnil] at hi ⊢
    match i with
    | 0 =>
      show (l.take k).getD j 0 = l.getD (0 * k + j) 0
      rw [getD_take l hj, Nat.zero_mul, Nat.zero_add]
    | i + 1 =>
      show ((chunks k (l.drop k)).getD i []).getD j 0 = l.getD ((i + 1) * k + j) 0
      rw [List.length_cons] at hi
      rw [ih (l.drop k) (by simp; omega) i j hj (by omega)]
      rw [getD_drop]
      congr 1
      ring

theorem GFb_ofByte_zero : GFb.ofByte 0 = 0 := by
  apply GFb.ext
  simp [GFb.ofByte]

theorem hornerEval_eq (x : Nat) : ∀ (chunk : List Nat),
    hornerEval chunk x
      = ∑ j ∈ Finset.range chunk.length, GFb.ofByte (chunk.getD j 0) * GFb.ofByte x ^ j := by
  intro chunk
  induction chunk with
  | nil => simp [hornerEval]
  | cons b bs ih =>
    have hstep : hornerEval (b :: bs) x = GFb.ofByte b + GFb.ofByte x * hornerEval bs x := by
      rw [hornerEval, List.reverse_cons, List.foldl_append, List.foldl_cons, List.foldl_nil]
      rfl
    rw [hstep, ih, List.length_cons, Finset.sum_range_succ']
    simp only [List.getD_cons_zero, List.getD_cons_succ, pow_zero, mul_one, pow_succ]
    rw [add_comm]
    congr 1
    rw [Finset.mul_sum]
    apply Finset.sum_congr rfl
    intro j _
    ring

theorem hornerEval_range {k : Nat} (x : Nat) (chunk : List Nat) (hlen : chunk.length ≤ k) :
    hornerEval chunk x
      = ∑ j ∈ Finset.range k, GFb.ofByte (chunk.getD j 0) * GFb.ofByte x ^ j := by
  rw [hornerEval_eq]
  apply Finset.sum_subset (Finset.range_subset.mpr hlen)
  intro j _ hj
  have hge : chunk.length ≤ j := by
    rcases Nat.lt_or_ge j chunk.length with h | h
    · exact absurd (Finset.mem_range.mpr h) hj
    · exact h
  rw [List.getD_eq_default _ _ hge, GFb_ofByte_zero, zero_mul]

theorem rabinSharesSize_eq {shares : List RabinShareL} {L : Nat}
    (hne : shares ≠ []) (h : ∀ s ∈ shares, s.length = L) :
    rabinSharesSize shares = some L := by
  match shares, hne with
  | s :: rest, _ =>
    have hs : s.length = L := h s (by simp)
    simp only [rabinSharesSize]
    rw [if_pos]
    · rw [hs]
    · rw [List.all_eq_true]
      intro t ht
      have h2 : t.length = L := h t ht
      simp [h2, hs]

theorem chunks_len_le {k : Nat} (hk : 1 ≤ k) (l : List Nat) :
    ∀ c ∈ chunks k l, c.length ≤ k := by
  suffices H : ∀ n (l : List Nat), l.length ≤ n → ∀ c ∈ chunks k l, c.length ≤ k by
    exact H l.length l le_rfl
  intro n
  induction n with
  | zero =>
    intro l hl c hc
    have hnil : l = [] := List.eq_nil_of_length_eq_zero (by omega)
    subst hnil
    rw [chunks_unfold, if_neg (by omega), if_pos rfl] at hc
    simp at hc
  | succ n ih =>
    intro l hl c hc
    by_cases hnil : l = []
    · subst hnil
      rw [chunks_unfold, if_neg (by omega), if_pos rfl] at hc
      simp at hc
    · rw [chunks_unfold, if_neg (by omega), if_neg hnil] at hc
      rcases List.mem_cons.mp hc with h | h
      · subst h
        simp
      · exact ih (l.drop k) (by simp; omega) c h

theorem getD_mem {α : Type} {l : List α} {i : Nat} (h : i < l.length) (d : α) :
    l.getD i d ∈ l := by
  rw [List.getD_eq_getElem l d h]
  exact l.getElem_mem h

theorem rabinRoundTrip {n k : Nat} (data : List Nat)
    (hk : 1 ≤ k) (hn : n ≤ 255)
    (hdata : ∀ b ∈ data, b < 256)
    (pick : Nat → Nat) (hpickn : ∀ t, t < k → pick t < n)
    (hpick : Set.InjOn pick (Finset.range k))
    {out : List RabinShareL} (hout : rabinShare n k data = .ok out) :
    rabinRecontruct k ((List.range k).map fun t => out.getD (pick t) default) = .ok data := by
  rw [rabinShare, if_neg (by omega)] at hout
  have hout' := RRes.ok.inj hout
  subst hout'
  set C := chunks k data with hC
  set shareFn : Nat → RabinShareL := fun x =>
    { id := x + 1
      length := data.length
      body := C.map fun c => (hornerEval c (x + 1)).val } with hshareFn
  set sel := (List.range k).map fun t =>
    ((List.range n).map shareFn).getD (pick t) default with hsel
  have hsellen : sel.length = k := by simp [hsel]
  have hselget : ∀ j, j < k → sel.getD j default = shareFn (pick j) := by
    intro j hj
    rw [hsel, getD_map_range _ hj, getD_map_range _ (hpickn j hj)]
  have hlenfield : ∀ s ∈ sel, s.length = data.length := by
    intro s hs
    rw [hsel] at hs
    rcases List.mem_map.mp hs with ⟨t, ht, rfl⟩
    rw [getD_map_range _ (hpickn t (List.mem_range.mp ht))]
  have hne : sel ≠ [] := by
    intro h
    rw [h] at hsellen
    simp at hsellen
    omega
  have hsize : rabinSharesSize sel = some data.length := rabinSharesSize_eq hne hlenfield
  have hguard : rabinOobPanic k data.length sel = false := by
    apply rabinOobPanic_eq_false
    intro x hx
    rw [hselget x hx, hselget 0 (by omega)]
    simp [hshareFn]
  rw [rabinRecontruct_ok (by rw [hsellen]; omega) hsize hguard]
  have hbody0 : (sel.getD 0 default).body.length = C.length := by
    rw [hselget 0 (by omega)]
    simp [hshareFn]
  show RRes.ok _ = RRes.ok data
  congr 1
  have hVinj : Set.InjOn (fun t => GFb.ofByte (pick t + 1)) (Finset.range k) := by
    intro t1 h1 t2 h2 he
    have b1 : pick t1 + 1 < 256 := by
      have := hpickn t1 (Finset.mem_range.mp h1)
      omega
    have b2 : pick t2 + 1 < 256 := by
      have := hpickn t2 (Finset.mem_range.mp h2)
      omega
    have hval : pick t1 = pick t2 := by
      have hc := congrArg GFb.val he
      simp only [GFb.val_ofByte b1, GFb.val_ofByte b2] at hc
      omega
    exact hpick h1 h2 hval
  have hDV : inverse (Matrix.of fun i j : Fin k => GFb.ofByte (pick i.val + 1) ^ j.val)
      * (Matrix.of fun i j : Fin k => GFb.ofByte (pick i.val + 1) ^ j.val) = 1 :=
    inverse_mul_eq_one _ (vand_minors (fun t => GFb.ofByte (pick t + 1)) hVinj)
  have hdec : generateDecoder k (sel.map (·.id))
      = inverse (Matrix.of fun i j : Fin k => GFb.ofByte (pick i.val + 1) ^ j.val) := by
    have harg : (Matrix.of fun i j : Fin k =>
        GFb.ofByte ((sel.map (·.id)).getD i.val 0) ^ j.val)
        = Matrix.of fun i j : Fin k => GFb.ofByte (pick i.val + 1) ^ j.val := by
      ext i j
      show GFb.ofByte ((sel.map (·.id)).getD i.val 0) ^ j.val
        = GFb.ofByte (pick i.val + 1) ^ j.val
      rw [getD_map _ _ (by rw [hsellen]; exact i.isLt) 0 default, hselget i.val i.isLt]
    rw [generateDecoder, harg]
  conv_rhs => rw [← range_map_getD data]
  apply List.map_congr_left
  intro idx hidx0
  have hidx : idx < data.length := List.mem_range.mp hidx0
  have hdivC : idx / k < C.length := chunks_div_lt hk data idx hidx
  have hcond : 0 < k ∧ idx / k < (sel.getD 0 default).body.length := by
    rw [hbody0]
    exact ⟨by omega, hdivC⟩
  rw [dif_pos hcond]
  have hcoef : ∀ x : Fin k,
      GFb.ofByte ((sel.getD x.val default).body.getD (idx / k) 0)
        = hornerEval (C.getD (idx / k) []) (pick x.val + 1) := by
    intro x
    rw [hselget x.val x.isLt]
    show GFb.ofByte ((C.map fun c => (hornerEval c (pick x.val + 1)).val).getD (idx / k) 0) = _
    rw [getD_map _ _ hdivC 0 []]
    rw [GFb.ofByte_val]
  have hhorner : ∀ x : Fin k,
      hornerEval (C.getD (idx / k) []) (pick x.val + 1)
        = (Matrix.of fun i j : Fin k => GFb.ofByte (pick i.val + 1) ^ j.val).mulVec
            (fun j : Fin k => GFb.ofByte ((C.getD (idx / k) []).getD j.val 0)) x := by
    intro x
    rw [hornerEval_range (pick x.val + 1) _ (chunks_len_le hk data _ (getD_mem hdivC []))]
    rw [Matrix.mulVec, Matrix.dotProduct]
    rw [← Fin.sum_univ_eq_sum_range (fun j =>
      GFb.ofByte ((C.getD (idx / k) []).getD j 0) * GFb.ofByte (pick x.val + 1) ^ j) k]
    apply Finset.sum_congr rfl
    intro j _
    show GFb.ofByte ((C.getD (idx / k) []).getD j.val 0) * GFb.ofByte (pick x.val + 1) ^ j.val
      = GFb.ofByte (pick x.val + 1) ^ j.val * GFb.ofByte ((C.getD (idx / k) []).getD j.val 0)
    rw [mul_comm]
  have hsum : (∑ x : Fin k,
      generateDecoder k (sel.map (·.id)) ⟨idx % k, Nat.mod_lt idx hcond.1⟩ x *
        GFb.ofByte ((sel.getD x.val default).body.getD (idx / k) 0))
      = GFb.ofByte ((C.getD (idx / k) []).getD (idx % k) 0) := by
    have h1 : (∑ x : Fin k,
        generateDecoder k (sel.map (·.id)) ⟨idx % k, Nat.mod_lt idx hcond.1⟩ x *
          GFb.ofByte ((sel.getD x.val default).body.getD (idx / k) 0))
        = (generateDecoder k (sel.map (·.id))).mulVec
            ((Matrix.of fun i j : Fin k => GFb.ofByte (pick i.val + 1) ^ j.val).mulVec
              (fun j : Fin k => GFb.ofByte ((C.getD (idx / k) []).getD j.val 0)))
            ⟨idx % k, Nat.mod_lt idx hcond.1⟩ := by
      rw [Matrix.mulVec, Matrix.dotProduct]
      apply Finset.sum_congr rfl
      intro x _
      rw [hcoef x, hhorner x]
    rw [h1, Matrix.mulVec_mulVec, hdec, hDV, Matrix.one_mulVec]
  rw [hsum]
  have hcc := chunks_coef hk data (idx / k) (idx % k) (Nat.mod_lt idx (by omega)) hdivC
  have hmul : idx / k * k + idx % k = idx := by
    rw [mul_comm]
    exact Nat.div_add_mod idx k
  rw [hmul] at hcc
  show (GFb.ofByte ((C.getD (idx / k) []).getD (idx % k) 0)).val = data.getD idx 0
  rw [hcc]
  exact GFb.val_ofByte (hdata _ (getD_mem_of_lt hidx 0))

/-! ### The Krawczyk composition round trip -/

theorem krawczykRoundTrip {n k : Nat} (rng : Nat → Nat)
    (enc dec : List Nat → List Nat → List Nat) (data : List Nat)
    (hk : 1 ≤ k) (hkn : k ≤ n) (hn : n ≤ 255)
    (hcipher : ∀ kn x, dec kn (enc kn x) = x)
    (hlen : ∀ kn x, (enc kn x).length = x.length)
    (hbytes : ∀ b ∈ enc ((List.range 44).map (byteAt rng)) data, b < 256)
    (pick : Nat → Nat) (hpickn : ∀ t, t < k → pick t < n)
    (hpick : Set.InjOn pick (Finset.range k))
    {out : List KrawczykShareL} (hout : krawczykShare n k rng enc data = .ok out) :
    krawczykRecontruct k dec ((List.range k).map fun t => out.getD (pick t) default)
      = .ok data := by
  have hkn0 : ((List.range 44).map (byteAt rng)).length = 44 := by simp
  have hrs : rabinShare n k (enc ((List.range 44).map (byteAt rng)) data)
      = RRes.ok ((List.range n).map fun x =>
        ({ id := x + 1
           length := (enc ((List.range 44).map (byteAt rng)) data).length
           body := (chunks k (enc ((List.range 44).map (byteAt rng)) data)).map
             fun c => (hornerEval c (x + 1)).val } : RabinShareL)) := by
    rw [rabinShare, if_neg (by omega)]
  have hss : shamirShare n k rng ((List.range 44).map (byteAt rng))
      = some ((List.range n).map fun x =>
        { id := if ((List.range 44).map (byteAt rng)).length = 0 then 0 else x + 1
          body := (List.range ((List.range 44).map (byteAt rng)).length).map
            fun i => shamirByte k rng ((List.range 44).map (byteAt rng)) i (x + 1) }) := by
    rw [shamirShare, if_neg (by omega)]
  rw [krawczykShare] at hout
  simp only [hrs, hss] at hout
  have hout' := RRes.ok.inj hout
  subst hout'
  set keyNonce := (List.range 44).map (byteAt rng) with hkeyNonce
  set c := enc keyNonce data with hc
  set rfn : Nat → RabinShareL := fun x =>
    { id := x + 1
      length := c.length
      body := (chunks k c).map fun cc => (hornerEval cc (x + 1)).val } with hrfn
  set sfn : Nat → ShamirShareL := fun x =>
    { id := if keyNonce.length = 0 then 0 else x + 1
      body := (List.range keyNonce.length).map fun i => shamirByte k rng keyNonce i (x + 1) }
    with hsfn
  set rl := (List.range n).map rfn with hrl
  set sl := (List.range n).map sfn with hsl
  set out := (rl.zip sl).map fun p =>
    ({ id := p.1.id
       length := data.length
       key := p.2.body.take 44
       body := p.1.body } : KrawczykShareL) with hout2
  have houtget : ∀ t, t < n → out.getD t default =
      { id := t + 1
        length := data.length
        key := (sfn t).body
        body := (rfn t).body } := by
    intro t ht
    have hlzip : (rl.zip sl).length = n := by
      simp [hrl, hsl]
    have h1 : out.getD t default = (fun p : RabinShareL × ShamirShareL =>
        ({ id := p.1.id
           length := data.length
           key := p.2.body.take 44
           body := p.1.body } : KrawczykShareL)) ((rl.zip sl).getD t default) := by
      rw [hout2]
      exact getD_map _ _ (by rw [hlzip]; exact ht) default default
    rw [h1]
    have h2 : (rl.zip sl).getD t default = (rfn t, sfn t) := by
      rw [List.getD_eq_getElem _ _ (by rw [hlzip]; exact ht)]
      rw [List.getElem_zip]
      simp only [hrl, hsl, List.getElem_map, List.getElem_range]
    rw [h2]
    have hkey : (sfn t).body.take 44 = (sfn t).body := by
      apply List.take_of_length_le
      simp [hsfn, hkeyNonce]
    show ({ id := (rfn t).id
            length := data.length
            key := (sfn t).body.take 44
            body := (rfn t).body } : KrawczykShareL) = _
    rw [hkey]
  rw [krawczykRecontruct]
  have hsel_shamir : ((List.range k).map fun t => out.getD (pick t) default).map
      (fun s => ShamirShareL.mk s.id s.key)
      = (List.range k).map fun t => ((List.range n).map sfn).getD (pick t) default := by
    rw [List.map_map]
    apply List.map_congr_left
    intro t ht
    have htk := List.mem_range.mp ht
    show ShamirShareL.mk (out.getD (pick t) default).id (out.getD (pick t) default).key
      = ((List.range n).map sfn).getD (pick t) default
    rw [houtget (pick t) (hpickn t htk), getD_map_range _ (hpickn t htk)]
    show ShamirShareL.mk (pick t + 1) (sfn (pick t)).body = sfn (pick t)
    rw [hsfn]
    show ShamirShareL.mk (pick t + 1) _ = ShamirShareL.mk _ _
    congr 1
  have hsel_rabin : ((List.range k).map fun t => out.getD (pick t) default).map
      (fun s => RabinShareL.mk s.id s.length s.body)
      = (List.range k).map fun t => ((List.range n).map rfn).getD (pick t) default := by
    rw [List.map_map]
    apply List.map_congr_left
    intro t ht
    have htk := List.mem_range.mp ht
    show RabinShareL.mk (out.getD (pick t) default).id (out.getD (pick t) default).length
        (out.getD (pick t) default).body
      = ((List.range n).map rfn).getD (pick t) default
    rw [houtget (pick t) (hpickn t htk), getD_map_range _ (hpickn t htk)]
    show RabinShareL.mk (pick t + 1) data.length (rfn (pick t)).body = rfn (pick t)
    rw [hrfn]
    show RabinShareL.mk (pick t + 1) data.length _ = RabinShareL.mk _ _ _
    congr 1
    rw [hc, hlen]
  rw [hsel_shamir, hsel_rabin]
  have hshamir := shamirRoundTrip rng keyNonce hk hkn hn
    (by
      intro b hb
      rw [hkeyNonce] at hb
      rcases List.mem_map.mp hb with ⟨t, _, rfl⟩
      exact byteAt_lt rng t)
    pick hpickn hpick hss
  have hrabin := rabinRoundTrip c hk hn
    (by
      rw [hc, hkeyNonce]
      exact hbytes)
    pick hpickn hpick hrs
  rw [hshamir]
  show (match rabinRecontruct k ((List.range k).map fun t =>
      ((List.range n).map rfn).getD (pick t) default) with
    | RRes.crash => RRes.crash
    | RRes.fail => RRes.fail
    | RRes.ok cc => RRes.ok (dec keyNonce cc)) = RRes.ok data
  rw [hrabin]
  show RRes.ok (dec keyNonce c) = RRes.ok data
  rw [hc, hcipher]

/-! ## The claims

Each claim of the specification is settled by one theorem below.  Witness
theorems instantiate a claim theorem at concrete inputs; counterexample
theorems refute the original wording of a corrected claim on concrete
inputs. -/

/-- Extract the payload of an `ok` result, with a default for `crash`/`fail`. -/
def RRes.getOkD {α : Type} (r : RRes α) (d : α) : α :=
  match r with
  | .ok a => a
  | _ => d

theorem map_const_eq_replicate {α : Type} (n : Nat) (c : α) :
    (List.range n).map (fun _ => c) = List.replicate n c := by
  induction n with
  | zero => rfl
  | succ m ih => rw [List.range_succ, List.map_append, ih, List.map_cons, List.map_nil,
      List.replicate_succ']

/-- C1: for `1 ≤ k ≤ n ≤ 255` and any byte secret, any `k` distinct shares
out of the `n` produced by `share` reconstruct the secret, for Shamir, Rabin
and (given a cipher with `dec ∘ enc = id`, in-place hence length-preserving)
Krawczyk.  The size-`k` subset is given by an injection `pick` of `0..k-1`
into the positions `0..n-1`. -/
theorem c1_round_trip {n k : Nat} (rng : Nat → Nat)
    (enc dec : List Nat → List Nat → List Nat) (data : List Nat)
    (hk : 1 ≤ k) (hkn : k ≤ n) (hn : n ≤ 255)
    (hdata : ∀ b ∈ data, b < 256)
    (hcipher : ∀ kn x, dec kn (enc kn x) = x)
    (hlen : ∀ kn x, (enc kn x).length = x.length)
    (hbytes : ∀ b ∈ enc ((List.range 44).map (byteAt rng)) data, b < 256)
    (pick : Nat → Nat) (hpickn : ∀ t, t < k → pick t < n)
    (hpick : Set.InjOn pick (Finset.range k))
    {outS : List ShamirShareL} {outR : List RabinShareL} {outK : List KrawczykShareL}
    (hS : shamirShare n k rng data = some outS)
    (hR : rabinShare n k data = .ok outR)
    (hK : krawczykShare n k rng enc data = .ok outK) :
    shamirRecontruct k ((List.range k).map fun t => outS.getD (pick t) default)
        = .ok data ∧
    rabinRecontruct k ((List.range k).map fun t => outR.getD (pick t) default)
        = .ok data ∧
    krawczykRecontruct k dec ((List.range k).map fun t => outK.getD (pick t) default)
        = .ok data :=
  ⟨shamirRoundTrip rng data hk hkn hn hdata pick hpickn hpick hS,
   rabinRoundTrip data hk hn hdata pick hpickn hpick hR,
   krawczykRoundTrip rng enc dec data hk hkn hn hcipher hlen hbytes pick hpickn hpick hK⟩

/-- Witness for C1 at `n = 3`, `k = 2`, secret `[7, 200]`, the identity
cipher, and the subset taking shares `2` and `1` (in that order). -/
theorem c1_round_trip_witness :
    shamirRecontruct 2 ((List.range 2).map fun t =>
        ([⟨1, [7, 201]⟩, ⟨2, [7, 202]⟩, ⟨3, [7, 203]⟩] : List ShamirShareL).getD
          (1 - t) default) = .ok [7, 200] ∧
    rabinRecontruct 2 ((List.range 2).map fun t =>
        ([⟨1, 2, [207]⟩, ⟨2, 2, [140]⟩, ⟨3, 2, [68]⟩] : List RabinShareL).getD
          (1 - t) default) = .ok [7, 200] ∧
    krawczykRecontruct 2 (fun _ d => d) ((List.range 2).map fun t =>
        ((krawczykShare 3 2 (fun i => i) (fun _ d => d) [7, 200]).getOkD []).getD
          (1 - t) default) = .ok [7, 200] :=
  c1_round_trip (fun i => i) (fun _ d => d) (fun _ d => d) [7, 200]
    (by decide : 1 ≤ 2) (by decide : 2 ≤ 3) (by decide : 3 ≤ 255) (by decide)
    (fun _ _ => rfl) (fun _ _ => rfl) (by decide)
    (fun t => 1 - t) (fun t _ => by show 1 - t < 3; omega)
    (by
      intro a ha b hb hab
      simp only [Finset.coe_range, Set.mem_Iio] at ha hb
      have hab' : 1 - a = 1 - b := hab
      omega)
    (by decide) (by decide) (by decide)

/-- C2 counterexample: the permutation matrix `[[0,1],[1,0]]` is its own
inverse over GF(2^8), yet `inverse` returns a matrix with
`inverse M * M ≠ 1` — the zero-pivot row swap is commented out in the code,
so the first pivot `M[0][0] = 0` destroys the elimination. -/
theorem c2_counterexample :
    (Matrix.of fun i j : Fin 2 => if i = j then (0 : GFb) else 1) *
        (Matrix.of fun i j : Fin 2 => if i = j then (0 : GFb) else 1) = 1 ∧
    inverse (Matrix.of fun i j : Fin 2 => if i = j then (0 : GFb) else 1) *
        (Matrix.of fun i j : Fin 2 => if i = j then (0 : GFb) else 1) ≠ 1 := by
  decide

/-- C2 (amended): `inverse` performs Gauss-Jordan elimination WITHOUT the
zero-pivot row swap (that step is commented out in the source), so it is
correct exactly on the matrices an in-order pivot handles: whenever every
leading principal minor of `M` is nonzero, `inverse M * M = 1`. -/
theorem c2_inverse_correct {k : Nat} (M : Matrix (Fin k) (Fin k) GFb)
    (hminors : ∀ t, (h : t < k) → (leadB M (t + 1) h).det ≠ 0) :
    inverse M * M = 1 :=
  inverse_mul_eq_one M hminors

/-- Witness for C2 (amended) on the 1×1 matrix `[[1]]`. -/
theorem c2_inverse_correct_witness :
    inverse (Matrix.of fun _ _ : Fin 1 => (1 : GFb)) *
      (Matrix.of fun _ _ : Fin 1 => (1 : GFb)) = 1 :=
  c2_inverse_correct (Matrix.of fun _ _ : Fin 1 => (1 : GFb)) (fun t ht => by
    have h0 : t = 0 := by omega
    subst h0
    rw [Matrix.det_fin_one]
    exact one_ne_zero)

/-- C3 counterexample: sharing the EMPTY secret with `n = k = 1` succeeds but
returns a share with id `0`, not `0 + 1`: the Shamir loop assigns ids only on
the first secret byte, so for an empty secret every id stays at the
`with_size` default `0`. -/
theorem c3_counterexample :
    shamirShare 1 1 (fun _ => 0) [] = some [{ id := 0, body := [] }] ∧
    (0 : Nat) ≠ 0 + 1 := by
  decide

/-- C3 (amended): whenever `share` succeeds, Rabin and Krawczyk shares carry
ids `1, …, n` in ascending order with position `i` holding id `i + 1`; Shamir
shares do so only for a NONEMPTY secret — for the empty secret all Shamir ids
are `0` (the id-assigning loop runs once per secret byte). -/
theorem c3_share_ids {n k : Nat} (rng : Nat → Nat)
    (enc : List Nat → List Nat → List Nat) (data : List Nat)
    {outS : List ShamirShareL} {outR : List RabinShareL} {outK : List KrawczykShareL}
    (hS : shamirShare n k rng data = some outS)
    (hR : rabinShare n k data = .ok outR)
    (hK : krawczykShare n k rng enc data = .ok outK) :
    outS.map (fun s => s.id)
        = (List.range n).map (fun i => if data.length = 0 then 0 else i + 1) ∧
    outR.map (fun s => s.id) = (List.range n).map (fun i => i + 1) ∧
    outK.map (fun s => s.id) = (List.range n).map (fun i => i + 1) := by
  by_cases hc : k < 1 ∨ k > n
  · rw [shamirShare, if_pos hc] at hS
    exact absurd hS (by simp)
  have hc2 : ¬ (k = 0 ∧ 1 ≤ n) := by omega
  rw [shamirShare, if_neg hc, Option.some_inj] at hS
  rw [rabinShare, if_neg hc2] at hR
  have hR' := RRes.ok.inj hR
  subst hS
  subst hR'
  refine ⟨?_, ?_, ?_⟩
  · rw [List.map_map]
    rfl
  · rw [List.map_map]
    rfl
  · have hrs : rabinShare n k (enc ((List.range 44).map (byteAt rng)) data)
        = RRes.ok ((List.range n).map fun x =>
          ({ id := x + 1
             length := (enc ((List.range 44).map (byteAt rng)) data).length
             body := (chunks k (enc ((List.range 44).map (byteAt rng)) data)).map
               fun c => (hornerEval c (x + 1)).val } : RabinShareL)) := by
      rw [rabinShare, if_neg hc2]
    have hss : shamirShare n k rng ((List.range 44).map (byteAt rng))
        = some ((List.range n).map fun x =>
          { id := if ((List.range 44).map (byteAt rng)).length = 0 then 0 else x + 1
            body := (List.range ((List.range 44).map (byteAt rng)).length).map
              fun i => shamirByte k rng ((List.range 44).map (byteAt rng)) i (x + 1) }) := by
      rw [shamirShare, if_neg hc]
    rw [krawczykShare] at hK
    simp only [hrs, hss] at hK
    have hK' := RRes.ok.inj hK
    subst hK'
    rw [List.zip_map', List.map_map, List.map_map]
    rfl

/-- Witness for C3 (amended) at `n = 3`, `k = 2`, secret `[7, 200]`, and the
identity cipher. -/
theorem c3_share_ids_witness :
    ([⟨1, [7, 201]⟩, ⟨2, [7, 202]⟩, ⟨3, [7, 203]⟩] : List ShamirShareL).map (fun s => s.id)
        = (List.range 3).map
            (fun i => if ([7, 200] : List Nat).length = 0 then 0 else i + 1) ∧
    ([⟨1, 2, [207]⟩, ⟨2, 2, [140]⟩, ⟨3, 2, [68]⟩] : List RabinShareL).map (fun s => s.id)
        = (List.range 3).map (fun i => i + 1) ∧
    ((krawczykShare 3 2 (fun i => i) (fun _ d => d) [7, 200]).getOkD []).map (fun s => s.id)
        = (List.range 3).map (fun i => i + 1) :=
  c3_share_ids (fun i => i) (fun _ d => d) [7, 200]
    (by decide : shamirShare 3 2 (fun i => i) [7, 200]
      = some [⟨1, [7, 201]⟩, ⟨2, [7, 202]⟩, ⟨3, [7, 203]⟩])
    (by decide) (by decide)

/-- C4 counterexample: `RabinInformationDispersal::share` performs no
parameter validation — with `k = 5 > n = 2` it succeeds instead of failing,
and with `k = 0`, `n = 1` it panics (`data.chunks(0)`) instead of returning a
failure value. -/
theorem c4_counterexample :
    rabinShare 2 5 [1, 2, 3] ≠ .fail ∧ rabinShare 2 5 [1, 2, 3] ≠ .crash ∧
    rabinShare 1 0 [1] = .crash := by
  decide

/-- C4 (amended): only Shamir validates its parameters (`share` returns the
failure value `none` exactly when `k < 1` or `k > n`).  Rabin never returns a
failure value: it panics (`.crash`) exactly when `k = 0` and `n ≥ 1`, and
succeeds otherwise — in particular for `k > n` and for `n = 0`.  Krawczyk
inherits both: it panics exactly when `k = 0 ∧ n ≥ 1`, and otherwise fails
exactly when `k < 1` or `k > n` (via its inner Shamir sharer). -/
theorem c4_share_validation {n k : Nat} (rng : Nat → Nat)
    (enc : List Nat → List Nat → List Nat) (data : List Nat) :
    (shamirShare n k rng data = none ↔ k < 1 ∨ k > n) ∧
    (rabinShare n k data = .crash ↔ k = 0 ∧ 1 ≤ n) ∧
    rabinShare n k data ≠ .fail ∧
    (krawczykShare n k rng enc data = .crash ↔ k = 0 ∧ 1 ≤ n) ∧
    (¬ (k = 0 ∧ 1 ≤ n) →
      (krawczykShare n k rng enc data = .fail ↔ k < 1 ∨ k > n)) := by
  refine ⟨?_, ?_, ?_, ?_, ?_⟩
  · constructor
    · intro h
      by_contra hc
      rw [shamirShare, if_neg hc] at h
      exact absurd h (by simp)
    · intro h
      rw [shamirShare, if_pos h]
  · constructor
    · intro h
      by_contra hc
      rw [rabinShare, if_neg hc] at h
      exact absurd h (by simp)
    · intro h
      rw [rabinShare, if_pos h]
  · by_cases hc : k = 0 ∧ 1 ≤ n
    · rw [rabinShare, if_pos hc]
      simp
    · rw [rabinShare, if_neg hc]
      simp
  · by_cases hc : k = 0 ∧ 1 ≤ n
    · rw [krawczykShare, rabinShare, if_pos hc]
      simp [hc]
    · rw [krawczykShare, rabinShare, if_neg hc]
      by_cases hs : k < 1 ∨ k > n
      · rw [shamirShare, if_pos hs]
        simp [hc]
      · rw [shamirShare, if_neg hs]
        simp [hc]
  · intro hc
    by_cases hs : k < 1 ∨ k > n
    · rw [krawczykShare, rabinShare, if_neg hc, shamirShare, if_pos hs]
      simp only [iff_true_intro hs]
    · rw [krawczykShare, rabinShare, if_neg hc, shamirShare, if_neg hs]
      simp
      omega

/-- Witness for C4 (amended): Shamir fails for `n = 0 < k`; Rabin panics for
`k = 0`, `n = 1`; Krawczyk fails (no panic) for `k = 5 > n = 3`. -/
theorem c4_share_validation_witness :
    shamirShare 0 3 (fun i => i) [] = none ∧
    rabinShare 1 0 [1] = .crash ∧
    krawczykShare 3 5 (fun i => i) (fun _ d => d) [1] = .fail :=
  ⟨(c4_share_validation (fun i => i) (fun _ d => d) []).1.mpr (by omega),
   (c4_share_validation (fun i => i) (fun _ d => d) [1]).2.1.mpr (by omega),
   ((c4_share_validation (fun i => i) (fun _ d => d) [1]).2.2.2.2 (by omega)).mpr
     (by omega)⟩

/-- C5 counterexample: inconsistent shares never yield an error value.  With
differing Shamir body sizes, or differing Rabin `length` fields, reconstruction
PANICS (`.crash`, the `size Error` panic of `ShareVec::size`); with equal
Rabin `length` fields but a SHORTER body, it panics indexing
`shares[x].body[i]`; and with duplicate ids it silently returns a WRONG `.ok`
answer: feeding share 1 of `rabinShare 3 2 [1, 2, 3]` twice yields
`.ok [3, 0, 3]`, and two copies of a Shamir share yield `.ok [0]`. -/
theorem c5_counterexample :
    shamirRecontruct 2 [⟨1, [5]⟩, ⟨2, [5, 6]⟩] = .crash ∧
    shamirRecontruct 2 [⟨1, [5]⟩, ⟨1, [5]⟩] = .ok [0] ∧
    rabinRecontruct 2 [⟨1, 2, [3, 3]⟩, ⟨2, 3, [5, 3]⟩] = .crash ∧
    rabinRecontruct 2 [⟨1, 4, [10, 20]⟩, ⟨2, 4, [30]⟩] = .crash ∧
    rabinShare 3 2 [1, 2, 3] = .ok [⟨1, 3, [3, 3]⟩, ⟨2, 3, [5, 3]⟩, ⟨3, 3, [7, 3]⟩] ∧
    rabinRecontruct 2 [⟨1, 3, [3, 3]⟩, ⟨1, 3, [3, 3]⟩] = .ok [3, 0, 3] := by
  decide

/-- C5 (amended): given at least `k` shares, reconstruction never reports an
`InconsistentShares` error value.  Shamir PANICS (`.crash`) when the body
sizes differ, and Rabin when the stored `length` fields differ
(`ShareVec::size`); Rabin also panics, on an out-of-bounds body read, when
the `length` fields agree but some of the first `k` bodies is shorter than
`shares[0]`'s at an executed read (`rabinOobPanic`), and it never returns the
failure value.  Duplicate ids are not detected at all: with consistent Shamir
sizes, or with consistent Rabin `length` fields and equal body lengths, the
result is `.ok` of something, whatever the ids are. -/
theorem c5_inconsistent_shares {k : Nat} (shares : List ShamirShareL)
    (rshares : List RabinShareL)
    (hlen : ¬ shares.length < k) (hrlen : ¬ rshares.length < k) :
    (shamirSharesSize shares = none → shamirRecontruct k shares = .crash) ∧
    (rabinSharesSize rshares = none → rabinRecontruct k rshares = .crash) ∧
    (∀ L, rabinSharesSize rshares = some L → rabinOobPanic k L rshares = true →
      rabinRecontruct k rshares = .crash) ∧
    rabinRecontruct k rshares ≠ .fail ∧
    (shamirSharesSize shares ≠ none → ∃ v, shamirRecontruct k shares = .ok v) ∧
    (rabinSharesSize rshares ≠ none →
      (∀ s ∈ rshares, s.body.length = (rshares.getD 0 default).body.length) →
      ∃ v, rabinRecontruct k rshares = .ok v) := by
  refine ⟨?_, ?_, ?_, ?_, ?_, ?_⟩
  · intro h
    rw [shamirRecontruct, if_neg hlen, h]
  · intro h
    rw [rabinRecontruct, if_neg hrlen, h]
  · intro L hL hg
    exact rabinRecontruct_oob_crash hrlen hL hg
  · cases hL : rabinSharesSize rshares with
    | none =>
      rw [show rabinRecontruct k rshares = .crash from by
        rw [rabinRecontruct, if_neg hrlen, hL]]
      simp
    | some L =>
      by_cases hg : rabinOobPanic k L rshares = true
      · rw [rabinRecontruct_oob_crash hrlen hL hg]
        simp
      · have hg' : rabinOobPanic k L rshares = false := by
          cases hb : rabinOobPanic k L rshares
          · rfl
          · exact absurd hb hg
        rw [rabinRecontruct_ok hrlen hL hg']
        simp
  · intro h
    obtain ⟨L, hL⟩ := Option.ne_none_iff_exists'.mp h
    exact ⟨_, by rw [shamirRecontruct, if_neg hlen, hL]⟩
  · intro h hbodies
    obtain ⟨L, hL⟩ := Option.ne_none_iff_exists'.mp h
    have hguard : rabinOobPanic k L rshares = false := by
      apply rabinOobPanic_eq_false
      intro x hx
      rw [hbodies _ (getD_mem (show x < rshares.length by omega) default)]
    exact ⟨_, rabinRecontruct_ok hrlen hL hguard⟩

/-- Witness for C5 (amended): two Shamir shares with bodies of lengths 2 and
1, and two Rabin shares with length fields 2 and 3, both make `recontruct`
panic via `ShareVec::size`; two Rabin shares with length fields 5 but bodies
of lengths 3 and 1 make it panic on the out-of-bounds body read. -/
theorem c5_inconsistent_shares_witness :
    shamirRecontruct 2 [⟨3, [1, 2]⟩, ⟨4, [9]⟩] = .crash ∧
    rabinRecontruct 2 [⟨1, 2, [3]⟩, ⟨2, 3, [5]⟩] = .crash ∧
    rabinRecontruct 2 [⟨1, 5, [1, 2, 3]⟩, ⟨2, 5, [4]⟩] = .crash :=
  ⟨(c5_inconsistent_shares [⟨3, [1, 2]⟩, ⟨4, [9]⟩] [⟨1, 2, [3]⟩, ⟨2, 3, [5]⟩]
      (by decide) (by decide)).1 (by decide),
   (c5_inconsistent_shares [⟨3, [1, 2]⟩, ⟨4, [9]⟩] [⟨1, 2, [3]⟩, ⟨2, 3, [5]⟩]
      (by decide) (by decide)).2.1 (by decide),
   (c5_inconsistent_shares [⟨3, [1, 2]⟩, ⟨4, [9]⟩] [⟨1, 5, [1, 2, 3]⟩, ⟨2, 5, [4]⟩]
      (by decide) (by decide)).2.2.1 5 (by decide) (by decide)⟩

/-- C6: all three reconstructions return the failure value `.fail` (`None`)
whenever fewer than `k` shares are supplied. -/
theorem c6_too_few_shares {k : Nat} (dec : List Nat → List Nat → List Nat)
    (s : List ShamirShareL) (r : List RabinShareL) (w : List KrawczykShareL)
    (hs : s.length < k) (hr : r.length < k) (hw : w.length < k) :
    shamirRecontruct k s = .fail ∧ rabinRecontruct k r = .fail ∧
    krawczykRecontruct k dec w = .fail := by
  refine ⟨?_, ?_, ?_⟩
  · rw [shamirRecontruct, if_pos hs]
  · rw [rabinRecontruct, if_pos hr]
  · have h1 : shamirRecontruct k (w.map fun t => ShamirShareL.mk t.id t.key) = .fail := by
      rw [shamirRecontruct, if_pos (by simpa using hw)]
    rw [krawczykRecontruct]
    simp only [h1]

/-- Witness for C6 at `k = 1` with empty share lists. -/
theorem c6_too_few_shares_witness :
    shamirRecontruct 1 [] = .fail ∧ rabinRecontruct 1 [] = .fail ∧
    krawczykRecontruct 1 (fun _ d => d) [] = .fail :=
  c6_too_few_shares (fun _ d => d) [] [] [] (by decide) (by decide) (by decide)

/-- C7: size laws of the shares produced for a secret of length `L` with
`1 ≤ k` (and a length-preserving cipher for Krawczyk): every Shamir body has
length `L`; every Rabin share has body length `⌈L/k⌉` and length field `L`;
every Krawczyk share has body length `⌈L/k⌉`, length field `L` and a 44-byte
key. -/
theorem c7_share_sizes {n k : Nat} (rng : Nat → Nat)
    (enc : List Nat → List Nat → List Nat) (data : List Nat)
    (hk : 1 ≤ k) (hlen : ∀ kn x, (enc kn x).length = x.length)
    {outS : List ShamirShareL} {outR : List RabinShareL} {outK : List KrawczykShareL}
    (hS : shamirShare n k rng data = some outS)
    (hR : rabinShare n k data = .ok outR)
    (hK : krawczykShare n k rng enc data = .ok outK) :
    outS.map (fun s => s.body.length) = List.replicate n data.length ∧
    outR.map (fun s => s.body.length) = List.replicate n ((data.length + k - 1) / k) ∧
    outR.map (fun s => s.length) = List.replicate n data.length ∧
    outK.map (fun s => s.body.length) = List.replicate n ((data.length + k - 1) / k) ∧
    outK.map (fun s => s.length) = List.replicate n data.length ∧
    outK.map (fun s => s.key.length) = List.replicate n 44 := by
  by_cases hc : k < 1 ∨ k > n
  · rw [shamirShare, if_pos hc] at hS
    exact absurd hS (by simp)
  have hc2 : ¬ (k = 0 ∧ 1 ≤ n) := by omega
  rw [shamirShare, if_neg hc, Option.some_inj] at hS
  rw [rabinShare, if_neg hc2] at hR
  have hR' := RRes.ok.inj hR
  subst hS
  subst hR'
  have hrs : rabinShare n k (enc ((List.range 44).map (byteAt rng)) data)
      = RRes.ok ((List.range n).map fun x =>
        ({ id := x + 1
           length := (enc ((List.range 44).map (byteAt rng)) data).length
           body := (chunks k (enc ((List.range 44).map (byteAt rng)) data)).map
             fun c => (hornerEval c (x + 1)).val } : RabinShareL)) := by
    rw [rabinShare, if_neg hc2]
  have hss : shamirShare n k rng ((List.range 44).map (byteAt rng))
      = some ((List.range n).map fun x =>
        { id := if ((List.range 44).map (byteAt rng)).length = 0 then 0 else x + 1
          body := (List.range ((List.range 44).map (byteAt rng)).length).map
            fun i => shamirByte k rng ((List.range 44).map (byteAt rng)) i (x + 1) }) := by
    rw [shamirShare, if_neg hc]
  rw [krawczykShare] at hK
  simp only [hrs, hss] at hK
  have hK' := RRes.ok.inj hK
  subst hK'
  rw [List.zip_map']
  simp only [List.map_map]
  have hckd : (chunks k data).length = (data.length + k - 1) / k := chunks_length hk data
  have hckc : (chunks k (enc ((List.range 44).map (byteAt rng)) data)).length
      = (data.length + k - 1) / k := by
    rw [chunks_length hk, hlen]
  refine ⟨?_, ?_, ?_, ?_, ?_, ?_⟩
  · simp only [Function.comp_def, List.length_map, List.length_range]
    exact map_const_eq_replicate n data.length
  · simp only [Function.comp_def, List.length_map, hckd]
    exact map_const_eq_replicate n _
  · simp only [Function.comp_def]
    exact map_const_eq_replicate n data.length
  · simp only [Function.comp_def, List.length_map, hckc]
    exact map_const_eq_replicate n _
  · simp only [Function.comp_def]
    exact map_const_eq_replicate n data.length
  · simp only [Function.comp_def, List.length_take, List.length_map, List.length_range,
      Nat.min_self]
    exact map_const_eq_replicate n 44

/-- Witness for C7 at `n = 3`, `k = 2`, secret `[7, 200]`, identity cipher:
Shamir bodies have length 2, Rabin and Krawczyk bodies length 1, length
fields 2, Krawczyk keys 44 bytes. -/
theorem c7_share_sizes_witness :
    ([⟨1, [7, 201]⟩, ⟨2, [7, 202]⟩, ⟨3, [7, 203]⟩] : List ShamirShareL).map
        (fun s => s.body.length) = List.replicate 3 2 ∧
    ([⟨1, 2, [207]⟩, ⟨2, 2, [140]⟩, ⟨3, 2, [68]⟩] : List RabinShareL).map
        (fun s => s.body.length) = List.replicate 3 1 ∧
    ([⟨1, 2, [207]⟩, ⟨2, 2, [140]⟩, ⟨3, 2, [68]⟩] : List RabinShareL).map
        (fun s => s.length) = List.replicate 3 2 ∧
    ((krawczykShare 3 2 (fun i => i) (fun _ d => d) [7, 200]).getOkD []).map
        (fun s => s.body.length) = List.replicate 3 1 ∧
    ((krawczykShare 3 2 (fun i => i) (fun _ d => d) [7, 200]).getOkD []).map
        (fun s => s.length) = List.replicate 3 2 ∧
    ((krawczykShare 3 2 (fun i => i) (fun _ d => d) [7, 200]).getOkD []).map
        (fun s => s.key.length) = List.replicate 3 44 :=
  c7_share_sizes (fun i => i) (fun _ d => d) [7, 200] (by decide) (fun _ _ => rfl)
    (by decide : shamirShare 3 2 (fun i => i) [7, 200]
      = some [⟨1, [7, 201]⟩, ⟨2, [7, 202]⟩, ⟨3, [7, 203]⟩])
    (by decide) (by decide)

/-- C8: on well-formed shares — equal stored `length` fields `L` and every
body of length exactly `⌈L/k⌉` — Rabin reconstruction neither panics nor
fails: it returns a buffer of exactly the stored length `L`, every position
`idx < L` of which is the matrix multiply
`Σ_x decoder[idx%k][x] * shares[x].body[idx/k]`; the in-loop guard skips only
the padding positions `idx ≥ L` of the final chunk, never a valid byte. -/
theorem c8_guard_only_padding {k L : Nat} (shares : List RabinShareL)
    (hk : 0 < k) (hlen : ¬ shares.length < k)
    (hsz : rabinSharesSize shares = some L)
    (hbody : ∀ s ∈ shares, s.body.length = (L + k - 1) / k) :
    rabinRecontruct k shares = .ok ((List.range L).map fun idx =>
      (∑ x : Fin k,
        generateDecoder k (shares.map (·.id)) ⟨idx % k, Nat.mod_lt idx hk⟩ x *
          GFb.ofByte ((shares.getD x.val default).body.getD (idx / k) 0)).val) := by
  have hb0 : (shares.getD 0 default).body.length = (L + k - 1) / k :=
    hbody _ (getD_mem (show 0 < shares.length by omega) default)
  have hguard : rabinOobPanic k L shares = false := by
    apply rabinOobPanic_eq_false
    intro x hx
    rw [hbody _ (getD_mem (show x < shares.length by omega) default), hb0]
  rw [rabinRecontruct_ok hlen hsz hguard]
  congr 1
  apply List.map_congr_left
  intro idx hidx
  have hidxL := List.mem_range.mp hidx
  have hdiv : idx / k < (L + k - 1) / k := by
    have h2 : L + k - 1 = (L - 1) + k := by omega
    have h1 : (L + k - 1) / k = (L - 1) / k + 1 := by
      rw [h2, Nat.add_div_right _ hk]
    have h3 : idx / k ≤ (L - 1) / k := Nat.div_le_div_right (by omega)
    omega
  have hcond : 0 < k ∧ idx / k < (shares.getD 0 default).body.length := by
    rw [hb0]
    exact ⟨hk, hdiv⟩
  rw [dif_pos hcond]

/-- Witness for C8 on two well-formed shares of the length-3 secret
`[1, 2, 3]` with `k = 2` (bodies of length 2 = ⌈3/2⌉): every index `0, 1, 2`
is produced by the decoder matrix multiply. -/
theorem c8_guard_only_padding_witness :
    rabinRecontruct 2 [⟨1, 3, [3, 3]⟩, ⟨2, 3, [5, 3]⟩]
      = .ok ((List.range 3).map fun idx =>
        (∑ x : Fin 2,
          generateDecoder 2
              (([⟨1, 3, [3, 3]⟩, ⟨2, 3, [5, 3]⟩] : List RabinShareL).map (·.id))
              ⟨idx % 2, Nat.mod_lt idx (by decide)⟩ x *
            GFb.ofByte ((([⟨1, 3, [3, 3]⟩, ⟨2, 3, [5, 3]⟩] : List RabinShareL).getD
              x.val default).body.getD (idx / 2) 0)).val) :=
  c8_guard_only_padding [⟨1, 3, [3, 3]⟩, ⟨2, 3, [5, 3]⟩]
    (by decide) (by decide) (by decide) (by decide)

/-- C9: the streaming Shamir variant is equivalent to the batch one — with
the same `(n, k)` and the same shared RNG stream (iterator `x` consumes, for
input position `i`, the same `k-1` stream bytes as every other iterator),
collecting the `n` iterators yields exactly the bodies of
`ShamirSecretSharing::share` on the same secret, with evaluation points
`x = 1, …, n`. -/
theorem c9_iter_batch_equiv {n k : Nat} (rng : Nat → Nat) (data : List Nat)
    {out : List ShamirShareL} (hout : shamirShare n k rng data = some out) :
    (shamirIterShare n k rng data).map (fun s => s.body) = out.map (fun s => s.body) ∧
    (shamirIterShare n k rng data).map (fun s => s.x)
      = (List.range n).map (fun x => x + 1) := by
  by_cases hc : k < 1 ∨ k > n
  · rw [shamirShare, if_pos hc] at hout
    exact absurd hout (by simp)
  rw [shamirShare, if_neg hc, Option.some_inj] at hout
  subst hout
  constructor
  · simp only [shamirIterShare, List.map_map]
    rfl
  · simp only [shamirIterShare, List.map_map]
    rfl

/-- Witness for C9 at `n = 3`, `k = 2`, secret `[7, 200]`: the collected
iterator bodies match the batch share bodies. -/
theorem c9_iter_batch_equiv_witness :
    (shamirIterShare 3 2 (fun i => i) [7, 200]).map (fun s => s.body)
        = ([⟨1, [7, 201]⟩, ⟨2, [7, 202]⟩, ⟨3, [7, 203]⟩] : List ShamirShareL).map
            (fun s => s.body) ∧
    (shamirIterShare 3 2 (fun i => i) [7, 200]).map (fun s => s.x)
        = (List.range 3).map (fun x => x + 1) :=
  c9_iter_batch_equiv (fun i => i) [7, 200]
    (by decide : shamirShare 3 2 (fun i => i) [7, 200]
      = some [⟨1, [7, 201]⟩, ⟨2, [7, 202]⟩, ⟨3, [7, 203]⟩])

theorem shamirRecByte_take {k : Nat} (shares : List ShamirShareL) (i : Nat) :
    shamirRecByte k (shares.take k) i = shamirRecByte k shares i := by
  rw [shamirRecByte, shamirRecByte]
  apply congrArg GFb.val
  apply Finset.sum_congr rfl
  intro j hj
  have hjk := Finset.mem_range.mp hj
  rw [getD_take shares hjk, mul_eq_mul_left_iff]
  refine Or.inl (Finset.prod_congr rfl fun m hm => ?_)
  have hmk := Finset.mem_range.mp (Finset.mem_filter.mp hm).1
  rw [getD_take shares hmk]

/-- C10: Shamir reconstruction depends only on the first `k` shares supplied:
with `k ≥ 1`, at least `k` shares and consistent body sizes,
`recontruct shares = recontruct (shares.take k)` — shares past position `k`
never influence the output. -/
theorem c10_first_k_shares {k : Nat} (shares : List ShamirShareL)
    (hk : 1 ≤ k) (hlen : ¬ shares.length < k)
    (hsz : shamirSharesSize shares ≠ none) :
    shamirRecontruct k shares = shamirRecontruct k (shares.take k) := by
  obtain ⟨L, hL⟩ := Option.ne_none_iff_exists'.mp hsz
  have htlen : ¬ (shares.take k).length < k := by
    rw [List.length_take]
    omega
  obtain ⟨s, rest, rfl⟩ : ∃ s rest, shares = s :: rest := by
    cases shares with
    | nil =>
      exfalso
      simp at hlen
      omega
    | cons s rest => exact ⟨s, rest, rfl⟩
  obtain ⟨m, rfl⟩ : ∃ m, k = m + 1 := ⟨k - 1, by omega⟩
  have hall : (s :: rest).all (fun t => t.body.length = s.body.length) := by
    by_contra hneg
    rw [shamirSharesSize, if_neg hneg] at hL
    exact absurd hL (by simp)
  have hLval : some s.body.length = some L := by
    rw [shamirSharesSize, if_pos hall] at hL
    exact hL
  have htsz : shamirSharesSize ((s :: rest).take (m + 1)) = some L := by
    rw [List.take_succ_cons, shamirSharesSize, if_pos]
    · exact hLval
    · rw [List.all_eq_true]
      intro t ht
      have : t ∈ s :: rest := by
        rcases List.mem_cons.mp ht with h | h
        · exact List.mem_cons.mpr (Or.inl h)
        · exact List.mem_cons.mpr (Or.inr (List.take_subset m rest h))
      exact List.all_eq_true.mp hall t this
  have e1 : shamirRecontruct (m + 1) (s :: rest)
      = RRes.ok ((List.range L).map fun i => shamirRecByte (m + 1) (s :: rest) i) := by
    rw [shamirRecontruct, if_neg hlen, hL]
  have e2 : shamirRecontruct (m + 1) ((s :: rest).take (m + 1))
      = RRes.ok ((List.range L).map fun i =>
          shamirRecByte (m + 1) ((s :: rest).take (m + 1)) i) := by
    rw [shamirRecontruct, if_neg htlen, htsz]
  rw [e1, e2]
  exact congrArg RRes.ok
    (List.map_congr_left fun i _ => (shamirRecByte_take (s :: rest) i).symm)

/-- Witness for C10: reconstructing from three consistent shares equals
reconstructing from the first two when `k = 2`. -/
theorem c10_first_k_shares_witness :
    shamirRecontruct 2 [⟨1, [7, 201]⟩, ⟨2, [7, 202]⟩, ⟨3, [7, 203]⟩]
      = shamirRecontruct 2
          (([⟨1, [7, 201]⟩, ⟨2, [7, 202]⟩, ⟨3, [7, 203]⟩] : List ShamirShareL).take 2) :=
  c10_first_k_shares [⟨1, [7, 201]⟩, ⟨2, [7, 202]⟩, ⟨3, [7, 203]⟩]
    (by decide) (by decide) (by decide)
